import Mathlib

/-!
Verification of the message-processor consumer (`src/packages/processor/processor.py`).

The development shallow-embeds the behaviour of `MessageProcessor`:

* `connectLoop` / `connect` model `MessageProcessor.connect` (lines 27-58):
  a bounded retry loop (5 attempts, 5-second delay) around the broker
  connection, followed by exchange declaration, queue declaration and
  queue binding executed once, outside the loop.
* `callback` models `MessageProcessor.callback` (lines 60-75): decode the
  payload as UTF-8, parse it as JSON, write the pretty-printed value to
  `<output_folder>/<timestamp>_<routing_key>.json` (file opened in mode
  `w`), then `basic_ack`; any failure is caught and answered with
  `basic_nack(requeue=False)`.
* `processAll` models the sequential delivery loop of `start_consuming`.

The JSON library functions used by the source (`json.loads`,
`json.dump(obj, f, indent=2)` with the default `ensure_ascii=True`) are
embedded as `loads` and `dumps` over the `Json` type below.  Two
deliberate restrictions of the embedding, both documented where they
occur: JSON numbers are modelled as integers (floating-point literals
are outside the model), and strings are Unicode scalar values (Python
would additionally tolerate lone surrogates produced by `\uXXXX`
escapes; those are rejected here because they are not representable).
-/

/-- JSON values as produced by Python `json.loads`: `None`, `bool`,
numbers, `str`, `list`, `dict` (a `dict` is modelled as its insertion
ordered key/value list; `loads` below never produces duplicate keys).
Numbers are restricted to integers: floating-point payloads are outside
this model. -/
inductive Json where
  | null : Json
  | bool : Bool → Json
  | num : Int → Json
  | str : String → Json
  | arr : List Json → Json
  | obj : List (String × Json) → Json

-- Size measure for `Json`, used for fuel bounds and induction.
mutual
def jsize : Json → Nat
  | Json.null => 1
  | Json.bool _ => 1
  | Json.num _ => 1
  | Json.str _ => 1
  | Json.arr xs => 1 + lsize xs
  | Json.obj kvs => 1 + psize kvs

def lsize : List Json → Nat
  | [] => 1
  | x :: xs => 1 + jsize x + lsize xs

def psize : List (String × Json) → Nat
  | [] => 1
  | kv :: kvs => 1 + jsize kv.2 + psize kvs
end

/-- Keys of an object member list, in order. -/
def keysOf (kvs : List (String × Json)) : List String := kvs.map Prod.fst

/-- Boolean membership on lists of strings. -/
def memS (k : String) : List String → Bool
  | [] => false
  | x :: xs => (x = k) || memS k xs

/-- A key list with no duplicates (the shape of every `dict` key list). -/
def nodupKeys : List String → Bool
  | [] => true
  | k :: ks => (!(memS k ks)) && nodupKeys ks

/-- The two key lists share no element. -/
def disjointKeys : List String → List String → Bool
  | [], _ => true
  | x :: rest, ys => (!(memS x ys)) && disjointKeys rest ys

-- Well-formedness of a `Json` value as a Python object: every object
-- (`dict`) has pairwise-distinct keys.  Every value returned by `loads`
-- is well-formed.
mutual
def wf : Json → Bool
  | Json.null => true
  | Json.bool _ => true
  | Json.num _ => true
  | Json.str _ => true
  | Json.arr xs => wfList xs
  | Json.obj kvs => nodupKeys (keysOf kvs) && wfPairs kvs

def wfList : List Json → Bool
  | [] => true
  | x :: xs => wf x && wfList xs

def wfPairs : List (String × Json) → Bool
  | [] => true
  | kv :: kvs => wf kv.2 && wfPairs kvs
end

/-- Decimal digit character, `digitChar d = '0' + d` for `d < 10`. -/
def digitChar (d : Nat) : Char := Char.ofNat (48 + d)

/-- Big-endian decimal digits of a natural number (`natDigits 0 = [0]`). -/
def natDigits (n : Nat) : List Nat :=
  if h : n < 10 then [n] else natDigits (n / 10) ++ [n % 10]
termination_by n
decreasing_by
  exact Nat.div_lt_self (by omega) (by omega)

/-- Decimal digit characters of a natural number, as printed by Python. -/
def natL (n : Nat) : List Char := (natDigits n).map digitChar

/-- Decimal representation of an integer, as printed by Python `repr`
for `int` (and by `json.dump`): optional minus sign, then digits. -/
def intL (n : Int) : List Char :=
  if n < 0 then '-' :: natL n.natAbs else natL n.toNat

/-- Lowercase hexadecimal digit character for `d < 16`. -/
def hexDigChar (d : Nat) : Char :=
  if d < 10 then Char.ofNat (48 + d) else Char.ofNat (87 + d)

/-- Four lowercase hex digits of `n % 0x10000`, as in Python's
`'\u%04x'` escape production. -/
def hex4 (n : Nat) : List Char :=
  [hexDigChar (n / 4096 % 16), hexDigChar (n / 256 % 16),
   hexDigChar (n / 16 % 16), hexDigChar (n % 16)]

/-- Escape of one character inside a JSON string, following CPython's
`json.encoder.py_encode_basestring_ascii` (used because `json.dump` is
called with the default `ensure_ascii=True`): the two-character escapes
for quote, backslash and the five control shorthands; `\uXXXX` for all
other characters outside `0x20..0x7e`; astral characters become a
UTF-16 surrogate pair of `\uXXXX` escapes. -/
def escL (c : Char) : List Char :=
  if c = '"' then ['\\', '"']
  else if c = '\\' then ['\\', '\\']
  else if c = '\n' then ['\\', 'n']
  else if c = '\r' then ['\\', 'r']
  else if c = '\t' then ['\\', 't']
  else if c.toNat = 8 then ['\\', 'b']
  else if c.toNat = 12 then ['\\', 'f']
  else if 0x20 ≤ c.toNat ∧ c.toNat ≤ 0x7e then [c]
  else if c.toNat ≤ 0xFFFF then '\\' :: 'u' :: hex4 c.toNat
  else
    ('\\' :: 'u' :: hex4 (0xD800 + (c.toNat - 0x10000) / 0x400)) ++
    ('\\' :: 'u' :: hex4 (0xDC00 + (c.toNat - 0x10000) % 0x400))

/-- Escaped form of a character sequence. -/
def escList : List Char → List Char
  | [] => []
  | c :: cs => escL c ++ escList cs

/-- Serialized JSON string: opening quote, escaped content, closing quote. -/
def encStr (s : String) : List Char := '"' :: (escList s.data ++ ['"'])

/-- Indentation emitted by `json.dump(..., indent=2)` at nesting
level `lvl`. -/
def indChars (lvl : Nat) : List Char := List.replicate (2 * lvl) ' '

-- Serializer matching `json.dump(message, f, indent=2)` (CPython with
-- `ensure_ascii=True`): empty containers print with no inner newline; non-empty
-- containers open with a newline, print items at level `lvl+1` separated
-- by `,` + newline + indentation, and close with newline + indentation at
-- level `lvl`; the key separator is `: `.
mutual
def dumpL (lvl : Nat) : Json → List Char
  | Json.null => ['n', 'u', 'l', 'l']
  | Json.bool true => ['t', 'r', 'u', 'e']
  | Json.bool false => ['f', 'a', 'l', 's', 'e']
  | Json.num n => intL n
  | Json.str s => encStr s
  | Json.arr [] => ['[', ']']
  | Json.arr (x :: xs) =>
      '[' :: '\n' :: (indChars (lvl + 1) ++
        (dumpL (lvl + 1) x ++ (dumpTail (lvl + 1) xs ++
          ('\n' :: (indChars lvl ++ [']'])))))
  | Json.obj [] => ['{', '}']
  | Json.obj (kv :: kvs) =>
      '{' :: '\n' :: (indChars (lvl + 1) ++
        (encStr kv.1 ++ (':' :: ' ' :: (dumpL (lvl + 1) kv.2 ++
          (dumpMTail (lvl + 1) kvs ++ ('\n' :: (indChars lvl ++ ['}'])))))))

def dumpTail (lvl : Nat) : List Json → List Char
  | [] => []
  | x :: xs => ',' :: '\n' :: (indChars lvl ++ (dumpL lvl x ++ dumpTail lvl xs))

def dumpMTail (lvl : Nat) : List (String × Json) → List Char
  | [] => []
  | kv :: kvs =>
      ',' :: '\n' :: (indChars lvl ++ (encStr kv.1 ++
        (':' :: ' ' :: (dumpL lvl kv.2 ++ dumpMTail lvl kvs))))
end

/-- The exact text written by `json.dump(message, f, indent=2)` in the
source (line 68): the value serialized at nesting level 0. -/
def dumps (j : Json) : String := String.mk (dumpL 0 j)

/-- JSON insignificant whitespace (the characters skipped by the
CPython scanner): space, tab, newline, carriage return. -/
def isJsonWs (c : Char) : Bool := c = ' ' || c = '\t' || c = '\n' || c = '\r'

/-- Skip insignificant whitespace. -/
def skipWs (cs : List Char) : List Char := cs.dropWhile isJsonWs

/-- Value of a hexadecimal digit character (either case), as accepted
by the `\uXXXX` escape. -/
def hexVal (c : Char) : Option Nat :=
  if 48 ≤ c.toNat ∧ c.toNat ≤ 57 then some (c.toNat - 48)
  else if 97 ≤ c.toNat ∧ c.toNat ≤ 102 then some (c.toNat - 87)
  else if 65 ≤ c.toNat ∧ c.toNat ≤ 70 then some (c.toNat - 55)
  else none

/-- Consume an expected literal character sequence. -/
def expectLit : List Char → List Char → Option (List Char)
  | [], cs => some cs
  | p :: ps, c :: cs => if c = p then expectLit ps cs else none
  | _ :: _, [] => none

/-- Combined value of four hexadecimal digit characters, as read by a
`\uXXXX` escape. -/
def hexQuad (h1 h2 h3 h4 : Char) : Option Nat :=
  match hexVal h1, hexVal h2, hexVal h3, hexVal h4 with
  | some a, some b, some g, some d => some (((a * 16 + b) * 16 + g) * 16 + d)
  | _, _, _, _ => none

/-- The eight shorthand escapes accepted after a backslash (CPython's
`BACKSLASH` table in `json.decoder`). -/
def escShort (e : Char) : Option Char :=
  if e = '"' then some '"'
  else if e = '\\' then some '\\'
  else if e = '/' then some '/'
  else if e = 'b' then some (Char.ofNat 8)
  else if e = 'f' then some (Char.ofNat 12)
  else if e = 'n' then some '\n'
  else if e = 'r' then some '\r'
  else if e = 't' then some '\t'
  else none

/-- Continuation of a `\uXXXX` escape that read a high surrogate `n`:
expects `\uYYYY` with a low surrogate and combines the pair into one
astral character (as in CPython `py_scanstring`). -/
def readLow (n : Nat) : List Char → Option (Char × List Char)
  | b1 :: b2 :: k1 :: k2 :: k3 :: k4 :: rest4 =>
    if b1 = '\\' ∧ b2 = 'u' then
      match hexQuad k1 k2 k3 k4 with
      | none => none
      | some m =>
        if 0xDC00 ≤ m ∧ m ≤ 0xDFFF then
          some (Char.ofNat (0x10000 + (n - 0xD800) * 0x400 + (m - 0xDC00)), rest4)
        else none
    else none
  | _ => none

/-- Read the four hex digits of a `\uXXXX` escape and dispatch: a high
surrogate must be completed by `readLow`; a lone low surrogate is
rejected (deviation from CPython, which would keep an unpaired
surrogate — not representable as a Lean `Char`); anything else is the
character itself. -/
def readU : List Char → Option (Char × List Char)
  | h1 :: h2 :: h3 :: h4 :: rest3 =>
    match hexQuad h1 h2 h3 h4 with
    | none => none
    | some n =>
      if 0xD800 ≤ n ∧ n ≤ 0xDBFF then readLow n rest3
      else if 0xDC00 ≤ n ∧ n ≤ 0xDFFF then none
      else some (Char.ofNat n, rest3)
  | _ => none

/-- Decode one escape unit positioned after the backslash: `e` is the
escape selector character and `rest2` the input after it (CPython
`py_scanstring` escape handling). -/
def readEsc (e : Char) (rest2 : List Char) : Option (Char × List Char) :=
  if e = 'u' then readU rest2
  else
    match escShort e with
    | some ec => some (ec, rest2)
    | none => none

/-- JSON string body scanner, modelling CPython `py_scanstring` with
`strict=True` (the `json.loads` default): positioned after the opening
quote, it accumulates characters until the closing quote; raw control
characters are rejected; escapes are decoded by `readEsc`.  The fuel
only bounds the number of steps; every step consumes at least one
character, so the `cs.length + 1` supplied by `pStr` never runs out. -/
def pStrF : Nat → List Char → List Char → Option (String × List Char)
  | 0, _, _ => none
  | fuel + 1, acc, cs =>
    match cs with
    | [] => none
    | c :: rest =>
      if c = '"' then some (String.mk acc, rest)
      else if c = '\\' then
        match rest with
        | [] => none
        | e :: rest2 =>
          match readEsc e rest2 with
          | some p => pStrF fuel (acc ++ [p.1]) p.2
          | none => none
      else if c.toNat < 0x20 then none
      else pStrF fuel (acc ++ [c]) rest

/-- String scanner entry point (after the opening quote). -/
def pStr (acc : List Char) (cs : List Char) : Option (String × List Char) :=
  pStrF (cs.length + 1) acc cs

/-- True when the next character could extend a numeric literal into a
fraction or exponent (which would make it a Python `float`, outside
this model). -/
def floaty : List Char → Bool
  | [] => false
  | c :: _ => c = '.' || c = 'e' || c = 'E'

/-- Scan an unsigned integer literal, following CPython's `NUMBER_RE`:
either a single `0` or a nonzero digit followed by digits (so `01`
scans as `0` and the outer grammar then fails on the stray `1`).
A fraction or exponent part would produce a Python `float`; the model
rejects it (`none`) because numbers are modelled as integers. -/
def pNat (cs : List Char) : Option (Nat × List Char) :=
  match cs with
  | [] => none
  | c :: rest =>
    if c.isDigit then
      if c = '0' then
        if floaty rest then none else some (0, rest)
      else
        let ds := rest.takeWhile Char.isDigit
        let r := rest.dropWhile Char.isDigit
        if floaty r then none
        else some ((c :: ds).foldl (fun a ch => a * 10 + (ch.toNat - 48)) 0, r)
    else none

/-- Scan a (possibly negative) integer literal. -/
def pNumber (cs : List Char) : Option (Json × List Char) :=
  match cs with
  | [] => none
  | c :: rest =>
    if c = '-' then (pNat rest).map fun p => (Json.num (-(p.1 : Int)), p.2)
    else (pNat (c :: rest)).map fun p => (Json.num (p.1 : Int), p.2)

/-- Insertion into an object member list with Python `dict` semantics:
an existing key keeps its position and gets the new value, a new key is
appended.  This is how the CPython JSON object parser builds its `dict`
(duplicate keys: last value wins, first position kept). -/
def insertKey : List (String × Json) → String → Json → List (String × Json)
  | [], k, v => [(k, v)]
  | kv :: rest, k, v =>
    if kv.1 = k then (kv.1, v) :: rest else kv :: insertKey rest k v

-- Recursive-descent JSON value scanner (`pValue`), with the array and
-- object member loops (`pElems`, `pMembs`), modelling the CPython
-- `json.scanner`/`json.decoder` grammar.  `fuel` only bounds recursion
-- depth; `loads` passes more fuel than any input can consume.
mutual
def pValue : Nat → List Char → Option (Json × List Char)
  | 0, _ => none
  | fuel + 1, cs =>
    match cs with
    | [] => none
    | c :: rest =>
      if c = '"' then
        match pStr [] rest with
        | some (s, r) => some (Json.str s, r)
        | none => none
      else if c = '{' then
        match skipWs rest with
        | [] => none
        | c1 :: r1 => if c1 = '}' then some (Json.obj [], r1) else pMembs fuel (c1 :: r1) []
      else if c = '[' then
        match skipWs rest with
        | [] => none
        | c1 :: r1 => if c1 = ']' then some (Json.arr [], r1) else pElems fuel (c1 :: r1) []
      else if c = 't' then
        match expectLit ['r', 'u', 'e'] rest with
        | some r => some (Json.bool true, r)
        | none => none
      else if c = 'f' then
        match expectLit ['a', 'l', 's', 'e'] rest with
        | some r => some (Json.bool false, r)
        | none => none
      else if c = 'n' then
        match expectLit ['u', 'l', 'l'] rest with
        | some r => some (Json.null, r)
        | none => none
      else pNumber (c :: rest)

def pElems : Nat → List Char → List Json → Option (Json × List Char)
  | 0, _, _ => none
  | fuel + 1, cs, acc =>
    match pValue fuel cs with
    | none => none
    | some (x, r) =>
      match skipWs r with
      | [] => none
      | c :: r2 =>
        if c = ',' then pElems fuel (skipWs r2) (acc ++ [x])
        else if c = ']' then some (Json.arr (acc ++ [x]), r2)
        else none

def pMembs : Nat → List Char → List (String × Json) → Option (Json × List Char)
  | 0, _, _ => none
  | fuel + 1, cs, acc =>
    match cs with
    | [] => none
    | c :: r =>
      if c = '"' then
        match pStr [] r with
        | none => none
        | some (k, r1) =>
          match skipWs r1 with
          | [] => none
          | c2 :: r2 =>
            if c2 = ':' then
              match pValue fuel (skipWs r2) with
              | none => none
              | some (v, r3) =>
                match skipWs r3 with
                | [] => none
                | c3 :: r4 =>
                  if c3 = ',' then pMembs fuel (skipWs r4) (insertKey acc k v)
                  else if c3 = '}' then some (Json.obj (insertKey acc k v), r4)
                  else none
            else none
      else none
end

/-- Model of `json.loads` on a decoded string: skip leading whitespace,
scan one value, require only whitespace after it.  The fuel
`s.data.length + 2` exceeds what any input can consume, since every
recursion step first consumes at least one character. -/
def loads (s : String) : Option Json :=
  match pValue (s.data.length + 2) (skipWs s.data) with
  | some (j, r) => if skipWs r = [] then some j else none
  | none => none

/-- Model of Python `bytes.decode("utf-8")` (strict, the default used
at line 62): standard UTF-8 with rejection of stray continuation
bytes, overlong encodings, surrogates and values above `0x10FFFF`. -/
def utf8Decode : List Nat → Option (List Char)
  | [] => some []
  | b :: rest =>
    if b < 0x80 then (utf8Decode rest).map (fun cs => Char.ofNat b :: cs)
    else if b < 0xC2 then none
    else if b < 0xE0 then
      match rest with
      | [] => none
      | b1 :: rest1 =>
        if 0x80 ≤ b1 ∧ b1 < 0xC0 then
          (utf8Decode rest1).map (fun cs =>
            Char.ofNat ((b - 0xC0) * 0x40 + (b1 - 0x80)) :: cs)
        else none
    else if b < 0xF0 then
      match rest with
      | b1 :: b2 :: rest2 =>
        if (0x80 ≤ b1 ∧ b1 < 0xC0) ∧ (0x80 ≤ b2 ∧ b2 < 0xC0) ∧
            (b = 0xE0 → 0xA0 ≤ b1) ∧ (b = 0xED → b1 < 0xA0) then
          (utf8Decode rest2).map (fun cs =>
            Char.ofNat ((b - 0xE0) * 0x1000 + (b1 - 0x80) * 0x40 + (b2 - 0x80)) :: cs)
        else none
      | _ => none
    else if b < 0xF5 then
      match rest with
      | b1 :: b2 :: b3 :: rest3 =>
        if (0x80 ≤ b1 ∧ b1 < 0xC0) ∧ (0x80 ≤ b2 ∧ b2 < 0xC0) ∧
            (0x80 ≤ b3 ∧ b3 < 0xC0) ∧
            (b = 0xF0 → 0x90 ≤ b1) ∧ (b = 0xF4 → b1 < 0x90) then
          (utf8Decode rest3).map (fun cs =>
            Char.ofNat ((b - 0xF0) * 0x40000 + (b1 - 0x80) * 0x1000 +
              (b2 - 0x80) * 0x40 + (b3 - 0x80)) :: cs)
        else none
      | _ => none
    else none

/-- Line 62 of the source, `json.loads(body.decode('utf-8'))`: both a
`UnicodeDecodeError` and a `json.JSONDecodeError` are caught by the
same `except`, so the model folds them into one `Option`. -/
def loadsBytes (body : List Nat) : Option Json :=
  match utf8Decode body with
  | some cs => loads (String.mk cs)
  | none => none

/-- A filesystem snapshot of the output directory: newest-first
association list from path to content (`fsGet` reads the newest
entry for a path). -/
def FS : Type := List (String × String)

/-- Content of the file at `path`, if present. -/
def fsGet (fs : FS) (path : String) : Option String :=
  match fs with
  | [] => none
  | e :: rest => if e.1 = path then some e.2 else fsGet rest path

/-- Create or replace the file at `path`. -/
def fsSet (fs : FS) (path content : String) : FS := (path, content) :: fs

/-- Python `open` modes used in this analysis: `write` is mode `w`
(create or truncate), `excl` is mode `x` (exclusive creation, fails if
the file exists).  The source (line 67) opens with mode `w`. -/
inductive OpenMode where
  | write : OpenMode
  | excl : OpenMode

/-- Open a file in `mode` and write `content`: `none` models the
`OSError` raised when mode `x` meets an existing file; mode `w`
always succeeds, silently truncating any existing file. -/
def openAndWrite (mode : OpenMode) (fs : FS) (path content : String) : Option FS :=
  match mode with
  | OpenMode.write => some (fsSet fs path content)
  | OpenMode.excl =>
    match fsGet fs path with
    | some _ => none
    | none => some (fsSet fs path content)

/-- Local wall-clock reading passed to `datetime.now().strftime`. -/
structure DateTime where
  year : Nat
  month : Nat
  day : Nat
  hour : Nat
  minute : Nat
  second : Nat
  microsecond : Nat

/-- Zero-pad the decimal digits of `n` on the left to width `w`. -/
def padNum (w n : Nat) : String :=
  String.mk (List.replicate (w - (natL n).length) '0' ++ natL n)

/-- The timestamp string `datetime.now().strftime('%Y%m%d_%H%M%S_%f')`
of line 63: zero-padded year (4), month (2), day (2), underscore,
hour (2), minute (2), second (2), underscore, microsecond (6). -/
def strftimeTimestamp (t : DateTime) : String :=
  padNum 4 t.year ++ padNum 2 t.month ++ padNum 2 t.day ++ "_" ++
  padNum 2 t.hour ++ padNum 2 t.minute ++ padNum 2 t.second ++ "_" ++
  padNum 6 t.microsecond

/-- The output filename built at line 64:
`f"{timestamp}_{method.routing_key}.json"`. -/
def mkFilename (t : DateTime) (rk : String) : String :=
  strftimeTimestamp t ++ "_" ++ rk ++ ".json"

/-- True when the first character of `s` is `c`. -/
def headIs (c : Char) (s : String) : Bool :=
  match s.data with
  | x :: _ => x = c
  | [] => false

/-- True when the last character of `s` is a slash. -/
def endsWithSlash (s : String) : Bool :=
  match s.data.getLast? with
  | some c => c = '/'
  | none => false

/-- Model of `os.path.join(a, b)` (POSIX, two arguments, line 65): an
absolute `b` replaces `a`; otherwise `b` is appended, inserting `/`
unless `a` is empty or already ends with one. -/
def osPathJoin (a b : String) : String :=
  if headIs '/' b then b
  else if a = "" || endsWithSlash a then a ++ b
  else a ++ "/" ++ b

/-- Delivery metadata handed to the callback by pika (`method`):
the routing key and the delivery tag. -/
structure Method where
  routing_key : String
  delivery_tag : Nat

/-- Broker confirmations issued through the channel: `basic_ack` and
`basic_nack` with its `requeue` flag. -/
inductive BrokerAction where
  | ack : Nat → BrokerAction
  | nack : Nat → Bool → BrokerAction

/-- The two log lines the callback can print: `"Message saved: <filename>"`
and `"Error processing message: <error>"` (the error text is opaque). -/
inductive LogEntry where
  | saved : String → LogEntry
  | error : LogEntry

/-- Everything one invocation of the callback does: the resulting
filesystem, the list of file writes it performed, the broker
confirmations it issued, and the log lines it printed. -/
structure CallbackResult where
  fs : FS
  writes : List (String × String)
  actions : List BrokerAction
  log : List LogEntry

/-- Model of `MessageProcessor.callback` (lines 60-75).  The `try`
block decodes the payload as UTF-8, parses it as JSON, builds the
timestamped filename, opens the file in mode `w` and dumps the value
with `indent=2`, prints the success line and acks.  Any failure along
the way (decode error, parse error, or a failing open — impossible for
mode `w` in this filesystem model, but kept for fidelity) falls into
`except`, which prints the error line and nacks with `requeue=False`. -/
def callback (output_folder : String) (fs : FS) (now : DateTime)
    (method : Method) (body : List Nat) : CallbackResult :=
  match loadsBytes body with
  | some message =>
    let filename := mkFilename now method.routing_key
    let filepath := osPathJoin output_folder filename
    match openAndWrite OpenMode.write fs filepath (dumps message) with
    | some fs2 =>
      { fs := fs2, writes := [(filepath, dumps message)],
        actions := [BrokerAction.ack method.delivery_tag],
        log := [LogEntry.saved filename] }
    | none =>
      { fs := fs, writes := [],
        actions := [BrokerAction.nack method.delivery_tag false],
        log := [LogEntry.error] }
  | none =>
    { fs := fs, writes := [],
      actions := [BrokerAction.nack method.delivery_tag false],
      log := [LogEntry.error] }

/-- One delivery as dispatched by `channel.start_consuming()`: the
wall-clock instant at which the callback runs, the delivery metadata
and the raw payload bytes. -/
structure Delivery where
  now : DateTime
  method : Method
  body : List Nat

/-- Cumulative outcome of a consume run. -/
structure ConsumeResult where
  fs : FS
  actions : List BrokerAction
  log : List LogEntry

/-- Model of the sequential consume loop (`start_consuming`, lines
77-86): deliveries are handled strictly one after another by
`callback`; the callback never lets an exception escape, so the loop
always proceeds to the next delivery. -/
def processAll (output_folder : String) (fs : FS) : List Delivery → ConsumeResult
  | [] => { fs := fs, actions := [], log := [] }
  | d :: ds =>
    let r := callback output_folder fs d.now d.method d.body
    let rest := processAll output_folder r.fs ds
    { fs := rest.fs, actions := r.actions ++ rest.actions, log := r.log ++ rest.log }

/-- Observable events of `connect` (lines 27-58), in order: each
connection attempt (0-based index, the `print` at line 34), the
success message, each `time.sleep(retry_delay)`, and the three broker
topology operations attempted after the loop. -/
inductive ConnEvent where
  | attempt : Nat → ConnEvent
  | connected : ConnEvent
  | sleep : Nat → ConnEvent
  | exchangeDeclare : ConnEvent
  | queueDeclare : ConnEvent
  | queueBind : ConnEvent

/-- How the retry loop of lines 31-47 ends: `connected` is the `break`
at line 39; `raised` is the bare `raise` at line 47 (attempt ==
max_retries - 1); `fellThrough` is the impossible-with-5 case of the
`for` loop finishing with zero iterations. -/
inductive ConnOutcome where
  | connected : ConnOutcome
  | raised : ConnOutcome
  | fellThrough : ConnOutcome

/-- External broker/transport oracle: whether the i-th connection
attempt succeeds, whether each topology operation succeeds, and the
server-generated exclusive queue name. -/
structure Broker where
  connOk : Nat → Bool
  exchangeOk : Bool
  queueOk : Bool
  bindOk : Bool
  queueName : String

/-- The retry loop `for attempt in range(max_retries)` of lines 31-47,
with `remaining = max_retries - attempt` as the recursion measure: a
successful attempt breaks out; a failed attempt sleeps `delay` seconds
and retries while `attempt < max_retries - 1` (that is, while
`remaining ≥ 2`), and re-raises on the last attempt. -/
def connectLoop (ok : Nat → Bool) (delay : Nat) : Nat → Nat → List ConnEvent × ConnOutcome
  | 0, _ => ([], ConnOutcome.fellThrough)
  | remaining + 1, attempt =>
    if ok attempt then ([ConnEvent.attempt attempt, ConnEvent.connected], ConnOutcome.connected)
    else if remaining = 0 then ([ConnEvent.attempt attempt], ConnOutcome.raised)
    else
      let res := connectLoop ok delay remaining (attempt + 1)
      (ConnEvent.attempt attempt :: ConnEvent.sleep delay :: res.1, res.2)

/-- Result of `connect`: either a bound queue (its name) or a raised
exception that terminates the process (`__main__` has no handler). -/
inductive ConnectResult where
  | ok : String → ConnectResult
  | error : ConnectResult

/-- Model of `MessageProcessor.connect` (lines 27-58): the retry loop
with `max_retries = 5`, `retry_delay = 5`, starting at attempt 0; then,
only if the loop connected, a single un-retried attempt at each of
`exchange_declare`, `queue_declare` and `queue_bind`, each failure
propagating immediately. -/
def connect (b : Broker) : List ConnEvent × ConnectResult :=
  let res := connectLoop b.connOk 5 5 0
  match res.2 with
  | ConnOutcome.connected =>
    if b.exchangeOk then
      if b.queueOk then
        if b.bindOk then
          (res.1 ++ [ConnEvent.exchangeDeclare, ConnEvent.queueDeclare, ConnEvent.queueBind],
            ConnectResult.ok b.queueName)
        else
          (res.1 ++ [ConnEvent.exchangeDeclare, ConnEvent.queueDeclare, ConnEvent.queueBind],
            ConnectResult.error)
      else (res.1 ++ [ConnEvent.exchangeDeclare, ConnEvent.queueDeclare], ConnectResult.error)
    else (res.1 ++ [ConnEvent.exchangeDeclare], ConnectResult.error)
  | _ => (res.1, ConnectResult.error)

/-- Recognizer for connection-attempt events. -/
def isAttempt : ConnEvent → Bool
  | ConnEvent.attempt _ => true
  | _ => false

/-- Recognizer for sleep events. -/
def isSleep : ConnEvent → Bool
  | ConnEvent.sleep _ => true
  | _ => false

/-- Recognizer for exchange-declaration events. -/
def isExchangeDeclare : ConnEvent → Bool
  | ConnEvent.exchangeDeclare => true
  | _ => false

/-- Recognizer for queue-declaration events. -/
def isQueueDeclare : ConnEvent → Bool
  | ConnEvent.queueDeclare => true
  | _ => false

/-- Recognizer for queue-bind events. -/
def isQueueBind : ConnEvent → Bool
  | ConnEvent.queueBind => true
  | _ => false

/-- ASCII character (code point below 128). -/
def isAsciiCh (c : Char) : Bool := decide (c.toNat < 128)

/-- True when the next character cannot extend a just-scanned integer
literal: it is not a digit and not a fraction/exponent starter.  Every
context in which the serializer places a number (end of input, or a
following `,`, newline, `]`, `\x7d`) satisfies this. -/
def numSafe (cs : List Char) : Bool :=
  match cs with
  | [] => true
  | c :: _ => !(c.isDigit || c = '.' || c = 'e' || c = 'E')

theorem connectLoop_succ (ok : Nat → Bool) (delay : Nat) :
    ∀ (N a r : Nat), N < r → (∀ i, i < N → ok (a + i) = false) → ok (a + N) = true →
      (connectLoop ok delay r a).2 = ConnOutcome.connected ∧
      ((connectLoop ok delay r a).1.filter isAttempt).length = N + 1 ∧
      (connectLoop ok delay r a).1.filter isSleep = List.replicate N (ConnEvent.sleep delay) := by
  intro N
  induction N with
  | zero =>
    intro a r hr hfail hok
    obtain ⟨r2, rfl⟩ : ∃ r2, r = r2 + 1 := ⟨r - 1, by omega⟩
    simp only [Nat.add_zero] at hok
    simp [connectLoop, hok, isAttempt, isSleep, List.filter]
  | succ n ih =>
    intro a r hr hfail hok
    obtain ⟨r2, rfl⟩ : ∃ r2, r = r2 + 1 := ⟨r - 1, by omega⟩
    have ha : ok a = false := by simpa using hfail 0 (by omega)
    have hr2 : r2 ≠ 0 := by omega
    have ih2 := ih (a + 1) r2 (by omega)
      (fun i hi => by
        have := hfail (i + 1) (by omega)
        simpa [Nat.add_assoc, Nat.add_comm 1 i] using this)
      (by
        have : a + 1 + n = a + (n + 1) := by omega
        rw [this]; exact hok)
    simp only [connectLoop, ha, Bool.false_eq_true, if_false, hr2, if_neg hr2]
    refine ⟨ih2.1, ?_, ?_⟩
    · simpa [List.filter, isAttempt, isSleep] using ih2.2.1
    · simpa [List.filter, isAttempt, isSleep, List.replicate] using ih2.2.2

theorem connectLoop_fail (ok : Nat → Bool) (delay : Nat) :
    ∀ (r a : Nat), 0 < r → (∀ i, a ≤ i → i < a + r → ok i = false) →
      (connectLoop ok delay r a).2 = ConnOutcome.raised ∧
      ((connectLoop ok delay r a).1.filter isAttempt).length = r := by
  intro r
  induction r with
  | zero => omega
  | succ r2 ih =>
    intro a hr hfail
    have ha : ok a = false := hfail a (by omega) (by omega)
    by_cases h0 : r2 = 0
    · subst h0
      simp [connectLoop, ha, List.filter, isAttempt]
    · have ih2 := ih (a + 1) (by omega) (fun i h1 h2 => hfail i (by omega) (by omega))
      simp only [connectLoop, ha, Bool.false_eq_true, if_false, if_neg h0]
      refine ⟨ih2.1, ?_⟩
      simpa [List.filter, isAttempt, isSleep] using ih2.2

theorem connectLoop_no_topology (ok : Nat → Bool) (delay : Nat) :
    ∀ (r a : Nat),
      (connectLoop ok delay r a).1.filter isExchangeDeclare = [] ∧
      (connectLoop ok delay r a).1.filter isQueueDeclare = [] ∧
      (connectLoop ok delay r a).1.filter isQueueBind = [] := by
  intro r
  induction r with
  | zero => intro a; simp [connectLoop]
  | succ r2 ih =>
    intro a
    by_cases hok : ok a
    · simp [connectLoop, hok, List.filter, isExchangeDeclare, isQueueDeclare, isQueueBind]
    · by_cases h0 : r2 = 0
      · subst h0
        simp [connectLoop, hok, List.filter, isExchangeDeclare, isQueueDeclare, isQueueBind]
      · have ih2 := ih (a + 1)
        simp only [connectLoop, hok, Bool.false_eq_true, if_false, if_neg h0]
        refine ⟨?_, ?_, ?_⟩
        · simpa [List.filter, isExchangeDeclare] using ih2.1
        · simpa [List.filter, isQueueDeclare] using ih2.2.1
        · simpa [List.filter, isQueueBind] using ih2.2.2

/-- C3: In `connect()`, if the connection attempt fails N times with
N < 5 and then succeeds, the consumer becomes connected after exactly
N+1 attempts with N fixed 5-second delays interposed between attempts;
if 5 consecutive attempts fail, `connect()` re-raises the last error
after exactly 5 attempts and the process terminates fatally. -/
theorem claim_C3 :
    (∀ (ok : Nat → Bool) (N : Nat), N < 5 → (∀ i, i < N → ok i = false) → ok N = true →
      (connectLoop ok 5 5 0).2 = ConnOutcome.connected ∧
      ((connectLoop ok 5 5 0).1.filter isAttempt).length = N + 1 ∧
      (connectLoop ok 5 5 0).1.filter isSleep = List.replicate N (ConnEvent.sleep 5)) ∧
    (∀ ok : Nat → Bool, (∀ i, i < 5 → ok i = false) →
      (connectLoop ok 5 5 0).2 = ConnOutcome.raised ∧
      ((connectLoop ok 5 5 0).1.filter isAttempt).length = 5 ∧
      (∀ b : Broker, b.connOk = ok → (connect b).2 = ConnectResult.error)) := by
  constructor
  · intro ok N hN hfail hok
    exact connectLoop_succ ok 5 N 0 5 hN (fun i hi => by simpa using hfail i hi)
      (by simpa using hok)
  · intro ok hfail
    have h := connectLoop_fail ok 5 5 0 (by omega) (fun i h1 h2 => hfail i (by omega))
    refine ⟨h.1, h.2, ?_⟩
    intro b hb
    simp [connect, hb, h.1]

/-- Witness for C3 at concrete transports: one that fails twice then
succeeds (connected after 3 attempts, 2 sleeps of 5 s), and one that
always fails (raised after 5 attempts, connect errors). -/
theorem claim_C3_witness :
    ((connectLoop (fun i => decide (2 ≤ i)) 5 5 0).2 = ConnOutcome.connected ∧
      ((connectLoop (fun i => decide (2 ≤ i)) 5 5 0).1.filter isAttempt).length = 2 + 1 ∧
      (connectLoop (fun i => decide (2 ≤ i)) 5 5 0).1.filter isSleep =
        List.replicate 2 (ConnEvent.sleep 5)) ∧
    ((connectLoop (fun _ => false) 5 5 0).2 = ConnOutcome.raised ∧
      ((connectLoop (fun _ => false) 5 5 0).1.filter isAttempt).length = 5 ∧
      (connect (Broker.mk (fun _ => false) true true true "q")).2 =
        ConnectResult.error) :=
  ⟨claim_C3.1 (fun i => decide (2 ≤ i)) 2 (by decide) (by decide) (by decide),
   ⟨(claim_C3.2 (fun _ => false) (fun i _ => rfl)).1,
    (claim_C3.2 (fun _ => false) (fun i _ => rfl)).2.1,
    (claim_C3.2 (fun _ => false) (fun i _ => rfl)).2.2 _ rfl⟩⟩

/-- C10: the bounded retry in `connect()` covers only establishing the
connection and channel; the exchange declaration, queue declaration
and queue binding run once, outside the retry loop, so a failure in
any of them is never retried (it appears exactly once in the event
trace) and propagates immediately as a fatal error. -/
theorem claim_C10 (b : Broker)
    (hconn : (connectLoop b.connOk 5 5 0).2 = ConnOutcome.connected) :
    (b.exchangeOk = false →
      connect b = ((connectLoop b.connOk 5 5 0).1 ++ [ConnEvent.exchangeDeclare],
        ConnectResult.error) ∧
      ((connect b).1.filter isExchangeDeclare).length = 1) ∧
    (b.exchangeOk = true → b.queueOk = false →
      connect b = ((connectLoop b.connOk 5 5 0).1 ++
        [ConnEvent.exchangeDeclare, ConnEvent.queueDeclare], ConnectResult.error) ∧
      ((connect b).1.filter isQueueDeclare).length = 1) ∧
    (b.exchangeOk = true → b.queueOk = true → b.bindOk = false →
      connect b = ((connectLoop b.connOk 5 5 0).1 ++
        [ConnEvent.exchangeDeclare, ConnEvent.queueDeclare, ConnEvent.queueBind],
        ConnectResult.error) ∧
      ((connect b).1.filter isQueueBind).length = 1) := by
  have hno := connectLoop_no_topology b.connOk 5 5 0
  refine ⟨fun hex => ?_, fun hex hq => ?_, fun hex hq hbind => ?_⟩
  · have hc : connect b = ((connectLoop b.connOk 5 5 0).1 ++ [ConnEvent.exchangeDeclare],
        ConnectResult.error) := by
      simp [connect, hconn, hex]
    refine ⟨hc, ?_⟩
    rw [hc]
    simp [List.filter_append, hno.1, List.filter, isExchangeDeclare]
  · have hc : connect b = ((connectLoop b.connOk 5 5 0).1 ++
        [ConnEvent.exchangeDeclare, ConnEvent.queueDeclare], ConnectResult.error) := by
      simp [connect, hconn, hex, hq]
    refine ⟨hc, ?_⟩
    rw [hc]
    simp [List.filter_append, hno.2.1, List.filter, isQueueDeclare, isExchangeDeclare]
  · have hc : connect b = ((connectLoop b.connOk 5 5 0).1 ++
        [ConnEvent.exchangeDeclare, ConnEvent.queueDeclare, ConnEvent.queueBind],
        ConnectResult.error) := by
      simp [connect, hconn, hex, hq, hbind]
    refine ⟨hc, ?_⟩
    rw [hc]
    simp [List.filter_append, hno.2.2, List.filter, isQueueBind, isQueueDeclare,
      isExchangeDeclare]

/-- Witness for C10 at three concrete brokers (connection succeeds on
the first attempt; exactly one of the three topology operations
fails). -/
theorem claim_C10_witness :
    (connect (Broker.mk (fun _ => true) false true true "q") =
      ((connectLoop (fun _ => true) 5 5 0).1 ++ [ConnEvent.exchangeDeclare],
        ConnectResult.error)) ∧
    (connect (Broker.mk (fun _ => true) true false true "q") =
      ((connectLoop (fun _ => true) 5 5 0).1 ++
        [ConnEvent.exchangeDeclare, ConnEvent.queueDeclare], ConnectResult.error)) ∧
    (connect (Broker.mk (fun _ => true) true true false "q") =
      ((connectLoop (fun _ => true) 5 5 0).1 ++
        [ConnEvent.exchangeDeclare, ConnEvent.queueDeclare, ConnEvent.queueBind],
        ConnectResult.error)) :=
  ⟨((claim_C10 (Broker.mk (fun _ => true) false true true "q") (by rfl)).1 rfl).1,
   ⟨((claim_C10 (Broker.mk (fun _ => true) true false true "q") (by rfl)).2.1 rfl rfl).1,
    ((claim_C10 (Broker.mk (fun _ => true) true true false "q") (by rfl)).2.2 rfl rfl rfl).1⟩⟩

theorem char_toNat_inj {a b : Char} (h : a.toNat = b.toNat) : a = b := by
  have := congrArg Char.ofNat h
  rwa [Char.ofNat_toNat, Char.ofNat_toNat] at this

theorem char_ne_of_toNat_ne {a b : Char} (h : a.toNat ≠ b.toNat) : a ≠ b :=
  fun heq => h (congrArg Char.toNat heq)

theorem digitChar_facts (d : Nat) (h : d < 10) :
    (digitChar d).isDigit = true ∧ isJsonWs (digitChar d) = false ∧
    (digitChar d).toNat = 48 + d := by
  interval_cases d <;> exact ⟨by decide, by decide, by decide⟩

theorem digitChar_ne (d : Nat) (h : d < 10) (c : Char)
    (hc : c.toNat < 48 ∨ 57 < c.toNat) : digitChar d ≠ c := by
  have h3 := (digitChar_facts d h).2.2
  exact char_ne_of_toNat_ne (by omega)

theorem natDigits_lt (n : Nat) : ∀ d ∈ natDigits n, d < 10 := by
  induction n using Nat.strong_induction_on with
  | _ n ih =>
    rw [natDigits]
    split
    · intro d hd
      simp at hd
      omega
    · intro d hd
      rcases List.mem_append.mp hd with h1 | h2
      · exact ih (n / 10) (Nat.div_lt_self (by omega) (by omega)) d h1
      · simp at h2
        omega

theorem natDigits_cons (n : Nat) :
    ∃ d ds, natDigits n = d :: ds ∧ d < 10 ∧ (n ≠ 0 → 1 ≤ d) ∧ ∀ x ∈ ds, x < 10 := by
  induction n using Nat.strong_induction_on with
  | _ n ih =>
    rw [natDigits]
    split
    · exact ⟨n, [], rfl, by omega, fun h => by omega, by simp⟩
    · obtain ⟨d, ds, heq, hd, hpos, hds⟩ := ih (n / 10) (Nat.div_lt_self (by omega) (by omega))
      refine ⟨d, ds ++ [n % 10], by rw [heq]; rfl, hd, fun _ => hpos (by omega), ?_⟩
      intro x hx
      rcases List.mem_append.mp hx with h1 | h2
      · exact hds x h1
      · simp at h2
        omega

theorem str_append_cancel_left (a b c : String) (h : a ++ b = a ++ c) : b = c := by
  have h2 := congrArg String.data h
  rw [String.data_append, String.data_append] at h2
  exact congrArg String.mk (List.append_cancel_left h2)

theorem str_append_cancel_right (a b c : String) (h : b ++ a = c ++ a) : b = c := by
  have h2 := congrArg String.data h
  rw [String.data_append, String.data_append] at h2
  exact congrArg String.mk (List.append_cancel_right h2)

theorem padNum_head (w n : Nat) :
    ∃ d cs, d < 10 ∧ (padNum w n).data = digitChar d :: cs := by
  obtain ⟨d, ds, heq, hd, _, hds⟩ := natDigits_cons n
  unfold padNum natL
  rw [heq]
  cases hw : w - ((d :: ds).map digitChar).length with
  | zero =>
    exact ⟨d, ds.map digitChar, hd, rfl⟩
  | succ k =>
    exact ⟨0, List.replicate k '0' ++ (digitChar d :: ds.map digitChar), by omega, rfl⟩

theorem strftimeTimestamp_head (t : DateTime) :
    ∃ d cs, d < 10 ∧ (strftimeTimestamp t).data = digitChar d :: cs := by
  obtain ⟨d, cs, hd, hdata⟩ := padNum_head 4 t.year
  refine ⟨d, cs ++ (padNum 2 t.month ++ padNum 2 t.day ++ "_" ++ padNum 2 t.hour ++
    padNum 2 t.minute ++ padNum 2 t.second ++ "_" ++ padNum 6 t.microsecond).data, hd, ?_⟩
  have : strftimeTimestamp t = padNum 4 t.year ++ (padNum 2 t.month ++ padNum 2 t.day ++
      "_" ++ padNum 2 t.hour ++ padNum 2 t.minute ++ padNum 2 t.second ++ "_" ++
      padNum 6 t.microsecond) := by
    unfold strftimeTimestamp
    simp [String.append_assoc]
  rw [this, String.data_append, hdata]
  rfl

theorem mkFilename_head (t : DateTime) (rk : String) :
    ∃ d cs, d < 10 ∧ (mkFilename t rk).data = digitChar d :: cs := by
  obtain ⟨d, cs, hd, hdata⟩ := strftimeTimestamp_head t
  refine ⟨d, cs ++ ("_" ++ rk ++ ".json").data, hd, ?_⟩
  have : mkFilename t rk = strftimeTimestamp t ++ ("_" ++ rk ++ ".json") := by
    unfold mkFilename
    simp [String.append_assoc]
  rw [this, String.data_append, hdata]
  rfl

theorem mkFilename_not_abs (t : DateTime) (rk : String) :
    headIs '/' (mkFilename t rk) = false := by
  obtain ⟨d, cs, hd, hdata⟩ := mkFilename_head t rk
  unfold headIs
  rw [hdata]
  simp only [decide_eq_false_iff_not]
  exact digitChar_ne d hd '/' (by decide)

/-- C4: for every delivered message, the handler issues exactly one
broker confirmation — an ack of the delivery tag when processing
succeeds, a nack of it when it fails — never zero and never both. -/
theorem claim_C4 (output_folder : String) (fs : FS) (t : DateTime)
    (m : Method) (body : List Nat) :
    (callback output_folder fs t m body).actions.length = 1 ∧
    ((callback output_folder fs t m body).actions = [BrokerAction.ack m.delivery_tag] ∨
     (callback output_folder fs t m body).actions =
       [BrokerAction.nack m.delivery_tag false]) := by
  cases h : loadsBytes body <;> simp [callback, h, openAndWrite]

/-- C2: a message whose payload fails UTF-8 decoding or JSON parsing
creates no file, is answered by a nack with `requeue=False`, the error
is logged, and the consume loop continues with the remaining
deliveries exactly as if the failed one had not touched the state. -/
theorem claim_C2 (output_folder : String) (fs : FS) (t : DateTime) (m : Method)
    (body : List Nat) (ds : List Delivery) (h : loadsBytes body = none) :
    callback output_folder fs t m body =
      CallbackResult.mk fs [] [BrokerAction.nack m.delivery_tag false] [LogEntry.error] ∧
    processAll output_folder fs (Delivery.mk t m body :: ds) =
      ConsumeResult.mk (processAll output_folder fs ds).fs
        (BrokerAction.nack m.delivery_tag false :: (processAll output_folder fs ds).actions)
        (LogEntry.error :: (processAll output_folder fs ds).log) := by
  have hcb : callback output_folder fs t m body =
      CallbackResult.mk fs [] [BrokerAction.nack m.delivery_tag false] [LogEntry.error] := by
    simp [callback, h]
  refine ⟨hcb, ?_⟩
  simp [processAll, hcb]

/-- Witness for C2 at the concrete invalid payload `b"\x7bn"` (the two
bytes of an opening brace and an `n`, which decode as UTF-8 but do not
parse as JSON). -/
theorem claim_C2_witness :
    loadsBytes [123, 110] = none ∧
    (callback "./messages" [] (DateTime.mk 2026 1 2 3 4 5 6) (Method.mk "expense.food" 9)
        [123, 110] =
      CallbackResult.mk [] [] [BrokerAction.nack 9 false] [LogEntry.error] ∧
    processAll "./messages" []
        [Delivery.mk (DateTime.mk 2026 1 2 3 4 5 6) (Method.mk "expense.food" 9) [123, 110]] =
      ConsumeResult.mk (processAll "./messages" [] []).fs
        (BrokerAction.nack 9 false :: (processAll "./messages" [] []).actions)
        (LogEntry.error :: (processAll "./messages" [] []).log)) :=
  ⟨rfl, claim_C2 "./messages" [] (DateTime.mk 2026 1 2 3 4 5 6) (Method.mk "expense.food" 9)
    [123, 110] [] rfl⟩

/-- C7: for every successfully processed message the output path is the
output folder joined with
`<YYYYMMDD>_<HHMMSS>_<microseconds>_<routing_key>.json` built from the
local timestamp, and the content is the payload pretty-printed by the
2-space-indent serializer. -/
theorem claim_C7 (output_folder : String) (fs : FS) (t : DateTime) (m : Method)
    (body : List Nat) (P : Json) (h : loadsBytes body = some P) :
    (callback output_folder fs t m body).writes =
      [(osPathJoin output_folder
          (padNum 4 t.year ++ padNum 2 t.month ++ padNum 2 t.day ++ "_" ++
           padNum 2 t.hour ++ padNum 2 t.minute ++ padNum 2 t.second ++ "_" ++
           padNum 6 t.microsecond ++ "_" ++ m.routing_key ++ ".json"),
        dumps P)] := by
  simp [callback, h, openAndWrite, mkFilename, strftimeTimestamp]

/-- Witness for C7 at the payload `b"42"` with routing key
`expense.food`. -/
theorem claim_C7_witness :
    loadsBytes [52, 50] = some (Json.num 42) ∧
    (callback "./messages" [] (DateTime.mk 2026 1 2 3 4 5 6) (Method.mk "expense.food" 1)
        [52, 50]).writes =
      [(osPathJoin "./messages"
          (padNum 4 2026 ++ padNum 2 1 ++ padNum 2 2 ++ "_" ++
           padNum 2 3 ++ padNum 2 4 ++ padNum 2 5 ++ "_" ++
           padNum 6 6 ++ "_" ++ "expense.food" ++ ".json"),
        dumps (Json.num 42))] :=
  ⟨rfl, claim_C7 "./messages" [] (DateTime.mk 2026 1 2 3 4 5 6) (Method.mk "expense.food" 1)
    [52, 50] (Json.num 42) rfl⟩

/-- C9: the handler performs no validation of the decoded value's
shape — whatever JSON value the payload parses to (number, string,
boolean, null, array or object alike), the result of the callback is
the same success record: one file written, an ack, a success log
line. -/
theorem claim_C9 (output_folder : String) (fs : FS) (t : DateTime) (m : Method)
    (body : List Nat) (P : Json) (h : loadsBytes body = some P) :
    callback output_folder fs t m body =
      CallbackResult.mk
        (fsSet fs (osPathJoin output_folder (mkFilename t m.routing_key)) (dumps P))
        [(osPathJoin output_folder (mkFilename t m.routing_key), dumps P)]
        [BrokerAction.ack m.delivery_tag]
        [LogEntry.saved (mkFilename t m.routing_key)] := by
  simp [callback, h, openAndWrite]

/-- Witness for C9 at a top-level number payload `b"7"` (not an
object), which is persisted and acked exactly like an object. -/
theorem claim_C9_witness :
    loadsBytes [55] = some (Json.num 7) ∧
    callback "./messages" [] (DateTime.mk 2026 1 2 3 4 5 6) (Method.mk "expense.travel" 3)
        [55] =
      CallbackResult.mk
        (fsSet [] (osPathJoin "./messages"
          (mkFilename (DateTime.mk 2026 1 2 3 4 5 6) "expense.travel")) (dumps (Json.num 7)))
        [(osPathJoin "./messages"
          (mkFilename (DateTime.mk 2026 1 2 3 4 5 6) "expense.travel"), dumps (Json.num 7))]
        [BrokerAction.ack 3]
        [LogEntry.saved (mkFilename (DateTime.mk 2026 1 2 3 4 5 6) "expense.travel")] :=
  ⟨rfl, claim_C9 "./messages" [] (DateTime.mk 2026 1 2 3 4 5 6) (Method.mk "expense.travel" 3)
    [55] (Json.num 7) rfl⟩

/-- Counterexample to C5: the source opens output files with mode `w`
(line 67), not an exclusive-creation mode.  At a state where the
target path already holds the file content `"old"`, the callback
neither fails nor leaves the file alone: it acknowledges the message
and silently replaces the content. -/
theorem claim_C5_counterexample :
    fsGet [(osPathJoin "out" (mkFilename (DateTime.mk 2026 1 2 3 4 5 6) "expense.food"),
        "old")]
      (osPathJoin "out" (mkFilename (DateTime.mk 2026 1 2 3 4 5 6) "expense.food")) =
      some "old" ∧
    (callback "out"
        [(osPathJoin "out" (mkFilename (DateTime.mk 2026 1 2 3 4 5 6) "expense.food"), "old")]
        (DateTime.mk 2026 1 2 3 4 5 6) (Method.mk "expense.food" 4) [52, 50]).actions =
      [BrokerAction.ack 4] ∧
    fsGet (callback "out"
        [(osPathJoin "out" (mkFilename (DateTime.mk 2026 1 2 3 4 5 6) "expense.food"), "old")]
        (DateTime.mk 2026 1 2 3 4 5 6) (Method.mk "expense.food" 4) [52, 50]).fs
      (osPathJoin "out" (mkFilename (DateTime.mk 2026 1 2 3 4 5 6) "expense.food")) =
      some (dumps (Json.num 42)) ∧
    dumps (Json.num 42) ≠ "old" := by
  refine ⟨?_, ?_, ?_, ?_⟩
  · simp [fsGet]
  · rfl
  · simp [callback, openAndWrite, fsSet, fsGet, loadsBytes]
  · have h1 : dumps (Json.num 42) = "42" := by
      rw [dumps, show dumpL 0 (Json.num 42) = intL 42 by rw [dumpL], intL]
      norm_num
      rw [natL, natDigits, natDigits]
      rfl
    rw [h1]
    decide

/-- C5 as amended: output files are opened in mode `w`, which silently
truncates and overwrites an existing file of the same name — the write
succeeds even when the file exists, the new content replaces the old,
and the message is still acknowledged. -/
theorem claim_C5_amended (output_folder : String) (fs : FS) (t : DateTime) (m : Method)
    (body : List Nat) (P : Json) (old : String) (h : loadsBytes body = some P)
    (hexist : fsGet fs (osPathJoin output_folder (mkFilename t m.routing_key)) = some old) :
    (callback output_folder fs t m body).actions = [BrokerAction.ack m.delivery_tag] ∧
    fsGet (callback output_folder fs t m body).fs
      (osPathJoin output_folder (mkFilename t m.routing_key)) = some (dumps P) := by
  simp [callback, h, openAndWrite, fsSet, fsGet]

/-- Witness for the amended C5 at a concrete pre-existing file. -/
theorem claim_C5_amended_witness :
    (callback "out"
        [(osPathJoin "out" (mkFilename (DateTime.mk 2026 1 2 3 4 5 6) "expense.food"), "old")]
        (DateTime.mk 2026 1 2 3 4 5 6) (Method.mk "expense.food" 4) [52, 50]).actions =
      [BrokerAction.ack 4] ∧
    fsGet (callback "out"
        [(osPathJoin "out" (mkFilename (DateTime.mk 2026 1 2 3 4 5 6) "expense.food"), "old")]
        (DateTime.mk 2026 1 2 3 4 5 6) (Method.mk "expense.food" 4) [52, 50]).fs
      (osPathJoin "out" (mkFilename (DateTime.mk 2026 1 2 3 4 5 6) "expense.food")) =
      some (dumps (Json.num 42)) :=
  claim_C5_amended "out"
    [(osPathJoin "out" (mkFilename (DateTime.mk 2026 1 2 3 4 5 6) "expense.food"), "old")]
    (DateTime.mk 2026 1 2 3 4 5 6) (Method.mk "expense.food" 4) [52, 50] (Json.num 42) "old"
    rfl (by simp [fsGet])

/-- C6: two messages delivered with distinct routing keys at the same
timestamp produce distinct filenames (the filename is injective in the
routing key given the timestamp), hence distinct output paths in the
same output folder, so neither write overwrites the other's file. -/
theorem claim_C6 (t : DateTime) (rk1 rk2 output_folder : String) (h : rk1 ≠ rk2) :
    mkFilename t rk1 ≠ mkFilename t rk2 ∧
    osPathJoin output_folder (mkFilename t rk1) ≠
      osPathJoin output_folder (mkFilename t rk2) := by
  have hname : mkFilename t rk1 ≠ mkFilename t rk2 := by
    intro heq
    exact h (str_append_cancel_left _ _ _ (str_append_cancel_right ".json" _ _ heq))
  refine ⟨hname, ?_⟩
  intro heq
  unfold osPathJoin at heq
  rw [mkFilename_not_abs t rk1, mkFilename_not_abs t rk2] at heq
  simp only [Bool.false_eq_true, if_false] at heq
  by_cases hf : output_folder = "" || endsWithSlash output_folder
  · rw [if_pos hf, if_pos hf] at heq
    exact hname (str_append_cancel_left _ _ _ heq)
  · rw [if_neg hf, if_neg hf] at heq
    exact hname (str_append_cancel_left _ _ _ heq)

/-- Witness for C6 at two concrete distinct routing keys. -/
theorem claim_C6_witness :
    mkFilename (DateTime.mk 2026 1 2 3 4 5 6) "expense.food" ≠
      mkFilename (DateTime.mk 2026 1 2 3 4 5 6) "expense.travel" ∧
    osPathJoin "./messages" (mkFilename (DateTime.mk 2026 1 2 3 4 5 6) "expense.food") ≠
      osPathJoin "./messages" (mkFilename (DateTime.mk 2026 1 2 3 4 5 6) "expense.travel") :=
  claim_C6 (DateTime.mk 2026 1 2 3 4 5 6) "expense.food" "expense.travel" "./messages"
    (by decide)

theorem skipWs_cons_ws (c : Char) (h : isJsonWs c = true) (cs : List Char) :
    skipWs (c :: cs) = skipWs cs := by
  simp [skipWs, List.dropWhile_cons, h]

theorem skipWs_cons_not (c : Char) (h : isJsonWs c = false) (cs : List Char) :
    skipWs (c :: cs) = c :: cs := by
  simp [skipWs, List.dropWhile_cons, h]

theorem skipWs_ws_append {l : List Char} (h : ∀ c ∈ l, isJsonWs c = true)
    (cs : List Char) : skipWs (l ++ cs) = skipWs cs := by
  induction l with
  | nil => rfl
  | cons x xs ih =>
    rw [List.cons_append, skipWs_cons_ws x (h x (by simp))]
    exact ih (fun c hc => h c (by simp [hc]))

theorem indChars_ws (lvl : Nat) : ∀ c ∈ indChars lvl, isJsonWs c = true := by
  intro c hc
  rw [indChars] at hc
  rw [List.eq_of_mem_replicate hc]
  rfl

theorem skipWs_ind_append (lvl : Nat) (cs : List Char) :
    skipWs (indChars lvl ++ cs) = skipWs cs :=
  skipWs_ws_append (indChars_ws lvl) cs

theorem expectLit_self : ∀ (p rest : List Char), expectLit p (p ++ rest) = some rest := by
  intro p
  induction p with
  | nil => intro rest; rfl
  | cons x xs ih =>
    intro rest
    simp [expectLit, ih]

theorem hexVal_hexDigChar (d : Nat) (h : d < 16) : hexVal (hexDigChar d) = some d := by
  interval_cases d <;> rfl

theorem hex4_append (n : Nat) (tail : List Char) :
    hex4 n ++ tail = hexDigChar (n / 4096 % 16) :: hexDigChar (n / 256 % 16) ::
      hexDigChar (n / 16 % 16) :: hexDigChar (n % 16) :: tail := rfl

theorem char_valid_nat (c : Char) :
    c.toNat < 0xD800 ∨ (0xDFFF < c.toNat ∧ c.toNat < 0x110000) := by
  have := c.valid
  unfold UInt32.isValidChar at this
  exact this

theorem pStrF_lit (fuel : Nat) (acc tail : List Char) (c : Char) (hq : c ≠ '"')
    (hb : c ≠ '\\') (hc : 0x20 ≤ c.toNat) :
    pStrF (fuel + 1) acc (c :: tail) = pStrF fuel (acc ++ [c]) tail := by
  simp only [pStrF]
  rw [if_neg hq, if_neg hb, if_neg (by omega)]

theorem pStrF_esc (fuel : Nat) (acc tail : List Char) (e ec : Char) (r : List Char)
    (h : readEsc e tail = some (ec, r)) :
    pStrF (fuel + 1) acc ('\\' :: e :: tail) = pStrF fuel (acc ++ [ec]) r := by
  simp [pStrF, h]

theorem hexQuad_digits (n : Nat) (h : n < 0x10000) :
    hexQuad (hexDigChar (n / 4096 % 16)) (hexDigChar (n / 256 % 16))
      (hexDigChar (n / 16 % 16)) (hexDigChar (n % 16)) = some n := by
  rw [hexQuad, hexVal_hexDigChar _ (by omega), hexVal_hexDigChar _ (by omega),
    hexVal_hexDigChar _ (by omega), hexVal_hexDigChar _ (by omega)]
  have : ((n / 4096 % 16 * 16 + n / 256 % 16) * 16 + n / 16 % 16) * 16 + n % 16 = n := by
    omega
  simp [this]

theorem readEsc_u (n : Nat) (hn : n < 0x10000) (hns : ¬(0xD800 ≤ n ∧ n ≤ 0xDFFF))
    (tail : List Char) :
    readEsc 'u' (hex4 n ++ tail) = some (Char.ofNat n, tail) := by
  rw [readEsc, if_pos rfl, hex4_append]
  simp only [readU, hexQuad_digits n hn]
  rw [if_neg (by omega : ¬(0xD800 ≤ n ∧ n ≤ 0xDBFF)),
    if_neg (by omega : ¬(0xDC00 ≤ n ∧ n ≤ 0xDFFF))]

theorem readLow_digits (n m : Nat) (hm : m < 0x10000)
    (hlo : 0xDC00 ≤ m ∧ m ≤ 0xDFFF) (tail : List Char) :
    readLow n ('\\' :: 'u' :: (hex4 m ++ tail)) =
      some (Char.ofNat (0x10000 + (n - 0xD800) * 0x400 + (m - 0xDC00)), tail) := by
  rw [hex4_append]
  simp only [readLow, hexQuad_digits m hm]
  norm_num
  intro hcon
  exact absurd (hcon hlo.1) (by omega)

theorem readEsc_u_pair (hi lo : Nat) (hhi : 0xD800 ≤ hi ∧ hi ≤ 0xDBFF)
    (hlo : 0xDC00 ≤ lo ∧ lo ≤ 0xDFFF) (tail : List Char) :
    readEsc 'u' (hex4 hi ++ ('\\' :: 'u' :: (hex4 lo ++ tail))) =
      some (Char.ofNat (0x10000 + (hi - 0xD800) * 0x400 + (lo - 0xDC00)), tail) := by
  rw [readEsc, if_pos rfl, hex4_append]
  simp only [readU, hexQuad_digits hi (by omega)]
  rw [if_pos hhi]
  exact readLow_digits hi lo (by omega) hlo tail

theorem pStrF_escL_step (c : Char) (fuel : Nat) (acc tail : List Char) :
    pStrF (fuel + 1) acc (escL c ++ tail) = pStrF fuel (acc ++ [c]) tail := by
  by_cases h1 : c = '"'
  · subst h1
    exact pStrF_esc fuel acc tail '"' '"' tail rfl
  by_cases h2 : c = '\\'
  · subst h2
    rw [show escL '\\' ++ tail = '\\' :: '\\' :: tail from rfl]
    exact pStrF_esc fuel acc tail '\\' '\\' tail rfl
  by_cases h3 : c = '\n'
  · subst h3
    rw [show escL '\n' ++ tail = '\\' :: 'n' :: tail by rw [escL]; rfl]
    exact pStrF_esc fuel acc tail 'n' '\n' tail rfl
  by_cases h4 : c = '\r'
  · subst h4
    rw [show escL '\r' ++ tail = '\\' :: 'r' :: tail by rw [escL]; rfl]
    exact pStrF_esc fuel acc tail 'r' '\r' tail rfl
  by_cases h5 : c = '\t'
  · subst h5
    rw [show escL '\t' ++ tail = '\\' :: 't' :: tail by rw [escL]; rfl]
    exact pStrF_esc fuel acc tail 't' '\t' tail rfl
  by_cases h6 : c.toNat = 8
  · have hc : c = Char.ofNat 8 := char_toNat_inj (by rw [h6]; rfl)
    subst hc
    rw [show escL (Char.ofNat 8) ++ tail = '\\' :: 'b' :: tail by rw [escL]; rfl]
    exact pStrF_esc fuel acc tail 'b' (Char.ofNat 8) tail rfl
  by_cases h7 : c.toNat = 12
  · have hc : c = Char.ofNat 12 := char_toNat_inj (by rw [h7]; rfl)
    subst hc
    rw [show escL (Char.ofNat 12) ++ tail = '\\' :: 'f' :: tail by rw [escL]; rfl]
    exact pStrF_esc fuel acc tail 'f' (Char.ofNat 12) tail rfl
  by_cases h8 : 0x20 ≤ c.toNat ∧ c.toNat ≤ 0x7e
  · have hesc : escL c = [c] := by
      rw [escL, if_neg h1, if_neg h2, if_neg h3, if_neg h4, if_neg h5, if_neg h6,
        if_neg h7, if_pos h8]
    rw [hesc]
    exact pStrF_lit fuel acc tail c h1 h2 h8.1
  by_cases h9 : c.toNat ≤ 0xFFFF
  · have hesc : escL c = '\\' :: 'u' :: hex4 c.toNat := by
      rw [escL, if_neg h1, if_neg h2, if_neg h3, if_neg h4, if_neg h5, if_neg h6,
        if_neg h7, if_neg h8, if_pos h9]
    have hns : ¬(0xD800 ≤ c.toNat ∧ c.toNat ≤ 0xDFFF) := by
      have := char_valid_nat c
      omega
    rw [hesc, List.cons_append, List.cons_append,
      pStrF_esc fuel acc _ 'u' (Char.ofNat c.toNat) tail (readEsc_u c.toNat (by omega) hns tail),
      Char.ofNat_toNat]
  · have hval := char_valid_nat c
    have hesc : escL c = ('\\' :: 'u' :: hex4 (0xD800 + (c.toNat - 0x10000) / 0x400)) ++
        ('\\' :: 'u' :: hex4 (0xDC00 + (c.toNat - 0x10000) % 0x400)) := by
      rw [escL, if_neg h1, if_neg h2, if_neg h3, if_neg h4, if_neg h5, if_neg h6,
        if_neg h7, if_neg h8, if_neg h9]
    rw [hesc]
    have hshape : (('\\' :: 'u' :: hex4 (0xD800 + (c.toNat - 0x10000) / 0x400)) ++
        ('\\' :: 'u' :: hex4 (0xDC00 + (c.toNat - 0x10000) % 0x400))) ++ tail =
        '\\' :: 'u' :: (hex4 (0xD800 + (c.toNat - 0x10000) / 0x400) ++
          ('\\' :: 'u' :: (hex4 (0xDC00 + (c.toNat - 0x10000) % 0x400) ++ tail))) := by
      simp
    rw [hshape,
      pStrF_esc fuel acc _ 'u' _ tail
        (readEsc_u_pair (0xD800 + (c.toNat - 0x10000) / 0x400)
          (0xDC00 + (c.toNat - 0x10000) % 0x400) (by omega) (by omega) tail)]
    rw [show 0x10000 + (0xD800 + (c.toNat - 0x10000) / 0x400 - 0xD800) * 0x400 +
        (0xDC00 + (c.toNat - 0x10000) % 0x400 - 0xDC00) = c.toNat by omega,
      Char.ofNat_toNat]

theorem pStrF_escList (cs : List Char) :
    ∀ (fuel : Nat) (acc rest : List Char),
      pStrF (fuel + cs.length + 1) acc (escList cs ++ ('"' :: rest)) =
        some (String.mk (acc ++ cs), rest) := by
  induction cs with
  | nil =>
    intro fuel acc rest
    simp [escList, pStrF]
  | cons c cs ih =>
    intro fuel acc rest
    rw [show escList (c :: cs) ++ ('"' :: rest) =
      escL c ++ (escList cs ++ ('"' :: rest)) by simp [escList]]
    rw [show fuel + (c :: cs).length + 1 = (fuel + cs.length + 1) + 1 by
      simp [List.length_cons]; omega]
    rw [pStrF_escL_step c (fuel + cs.length + 1) acc _, ih fuel (acc ++ [c]) rest]
    simp

theorem escL_length_pos (c : Char) : 1 ≤ (escL c).length := by
  rw [escL]
  split_ifs <;> simp [hex4]

theorem escList_length_ge (cs : List Char) : cs.length ≤ (escList cs).length := by
  induction cs with
  | nil => simp [escList]
  | cons c cs ih =>
    rw [escList]
    have := escL_length_pos c
    simp only [List.length_append, List.length_cons]
    omega

theorem pStr_encStr (s : String) (rest : List Char) :
    pStr [] (escList s.data ++ ('"' :: rest)) = some (s, rest) := by
  rw [pStr]
  have hlen : (escList s.data ++ ('"' :: rest)).length + 1 =
      ((escList s.data ++ ('"' :: rest)).length - s.data.length) + s.data.length + 1 := by
    have := escList_length_ge s.data
    simp only [List.length_append, List.length_cons]
    omega
  rw [hlen, pStrF_escList s.data _ [] rest]
  rfl

theorem natDigits_val (n : Nat) :
    (natDigits n).foldl (fun a d => a * 10 + d) 0 = n := by
  induction n using Nat.strong_induction_on with
  | _ n ih =>
    rw [natDigits]
    split
    · simp
    · rw [List.foldl_append, ih (n / 10) (Nat.div_lt_self (by omega) (by omega))]
      simp
      omega

theorem foldl_digitChar (ds : List Nat) (h : ∀ d ∈ ds, d < 10) :
    ∀ (a : Nat), (ds.map digitChar).foldl (fun acc ch => acc * 10 + (ch.toNat - 48)) a =
      ds.foldl (fun acc d => acc * 10 + d) a := by
  induction ds with
  | nil => intro a; rfl
  | cons d ds ih =>
    intro a
    have hd := (digitChar_facts d (h d (by simp))).2.2
    simp only [List.map_cons, List.foldl_cons, hd]
    rw [show 48 + d - 48 = d by omega]
    exact ih (fun x hx => h x (by simp [hx])) _

theorem takeWhile_digits (l : List Char) (hl : ∀ c ∈ l, c.isDigit = true) :
    ∀ (r : List Char), numSafe r = true →
      (l ++ r).takeWhile Char.isDigit = l ∧ (l ++ r).dropWhile Char.isDigit = r := by
  induction l with
  | nil =>
    intro r hr
    cases r with
    | nil => exact ⟨rfl, rfl⟩
    | cons c cs =>
      simp [numSafe] at hr
      obtain ⟨⟨⟨hdg, hdot⟩, he⟩, hE⟩ := hr
      simp [List.takeWhile_cons, List.dropWhile_cons, hdg]
  | cons x xs ih =>
    intro r hr
    have hx := hl x (by simp)
    obtain ⟨h1, h2⟩ := ih (fun c hc => hl c (by simp [hc])) r hr
    simp [List.takeWhile_cons, List.dropWhile_cons, hx, h1, h2]

theorem pNat_natL (n : Nat) (rest : List Char) (hs : numSafe rest = true) :
    pNat (natL n ++ rest) = some (n, rest) := by
  have hfl : floaty rest = false := by
    cases rest with
    | nil => rfl
    | cons c cs =>
      simp [numSafe] at hs
      obtain ⟨⟨⟨hdg, hdot⟩, he⟩, hE⟩ := hs
      simp [floaty, hdot, he, hE]
  obtain ⟨d, ds, heq, hd, hpos, hds⟩ := natDigits_cons n
  by_cases h0 : n = 0
  · subst h0
    have hnd : natDigits 0 = [0] := by rw [natDigits]; rfl
    rw [show natL 0 = ['0'] by rw [natL, hnd]; rfl]
    simp only [List.cons_append, List.nil_append, pNat]
    simp [hfl]
  · have hd1 : 1 ≤ d := hpos h0
    have hnatL : natL n ++ rest = digitChar d :: (ds.map digitChar ++ rest) := by
      rw [natL, heq]
      rfl
    have hne0 : digitChar d ≠ '0' := by
      apply char_ne_of_toNat_ne
      rw [(digitChar_facts d hd).2.2]
      have : ('0' : Char).toNat = 48 := by decide
      omega
    have htk := takeWhile_digits (ds.map digitChar)
      (fun c hc => by
        obtain ⟨x, hx, rfl⟩ := List.mem_map.mp hc
        exact (digitChar_facts x (hds x hx)).1) rest hs
    rw [hnatL]
    simp only [pNat]
    rw [if_pos (digitChar_facts d hd).1, if_neg hne0, htk.1, htk.2, hfl]
    have hv : (digitChar d :: ds.map digitChar).foldl
        (fun a ch => a * 10 + (ch.toNat - 48)) 0 = n := by
      rw [show digitChar d :: ds.map digitChar = (d :: ds).map digitChar from rfl]
      rw [foldl_digitChar (d :: ds) (fun x hx => by
        rcases List.mem_cons.mp hx with h | h
        · omega
        · exact hds x h)]
      rw [← heq]
      exact natDigits_val n
    simp [hv]

theorem pNumber_intL (i : Int) (rest : List Char) (hs : numSafe rest = true) :
    pNumber (intL i ++ rest) = some (Json.num i, rest) := by
  by_cases hneg : i < 0
  · rw [show intL i = '-' :: natL i.natAbs by rw [intL, if_pos hneg]]
    simp only [List.cons_append, pNumber]
    rw [if_pos trivial, pNat_natL i.natAbs rest hs]
    show some (Json.num (-(i.natAbs : Int)), rest) = some (Json.num i, rest)
    rw [show -(i.natAbs : Int) = i by omega]
  · rw [show intL i = natL i.toNat by rw [intL, if_neg hneg]]
    obtain ⟨d, ds, heq, hd, hpos, hds⟩ := natDigits_cons i.toNat
    have hcons : natL i.toNat ++ rest = digitChar d :: (ds.map digitChar ++ rest) := by
      rw [natL, heq]
      rfl
    rw [hcons]
    simp only [pNumber]
    have hnm : digitChar d ≠ '-' := by
      apply char_ne_of_toNat_ne
      rw [(digitChar_facts d hd).2.2]
      have : ('-' : Char).toNat = 45 := by decide
      omega
    rw [if_neg hnm, ← hcons, pNat_natL i.toNat rest hs]
    show some (Json.num ((i.toNat : Nat) : Int), rest) = some (Json.num i, rest)
    rw [show ((i.toNat : Nat) : Int) = i by omega]

theorem jsize_pos (j : Json) : 1 ≤ jsize j := by
  cases j <;> rw [jsize] <;> omega

theorem lsize_pos (xs : List Json) : 1 ≤ lsize xs := by
  cases xs <;> rw [lsize] <;> omega

theorem psize_pos (kvs : List (String × Json)) : 1 ≤ psize kvs := by
  cases kvs <;> rw [psize] <;> omega

theorem dumpL_head (lvl : Nat) (j : Json) :
    ∃ c cs, dumpL lvl j = c :: cs ∧ isJsonWs c = false ∧ c ≠ ']' ∧ c ≠ '}' := by
  cases j with
  | null => exact ⟨'n', _, by rw [dumpL], by decide, by decide, by decide⟩
  | bool b =>
    cases b with
    | true => exact ⟨'t', _, by rw [dumpL], by decide, by decide, by decide⟩
    | false => exact ⟨'f', _, by rw [dumpL], by decide, by decide, by decide⟩
  | num n =>
    by_cases hneg : n < 0
    · exact ⟨'-', _, by rw [dumpL, intL, if_pos hneg], by decide, by decide, by decide⟩
    · obtain ⟨d, ds, heq, hd, _, _⟩ := natDigits_cons n.toNat
      refine ⟨digitChar d, ds.map digitChar, ?_, (digitChar_facts d hd).2.1,
        digitChar_ne d hd ']' (by decide), digitChar_ne d hd '}' (by decide)⟩
      rw [dumpL, intL, if_neg hneg, natL, heq]
      rfl
  | str s => exact ⟨'"', _, by rw [dumpL]; rfl, by decide, by decide, by decide⟩
  | arr xs =>
    cases xs with
    | nil => exact ⟨'[', _, by rw [dumpL], by decide, by decide, by decide⟩
    | cons x xs => exact ⟨'[', _, by rw [dumpL], by decide, by decide, by decide⟩
  | obj kvs =>
    cases kvs with
    | nil => exact ⟨'{', _, by rw [dumpL], by decide, by decide, by decide⟩
    | cons kv kvs => exact ⟨'{', _, by rw [dumpL], by decide, by decide, by decide⟩

theorem numSafe_dumpTail (el : Nat) (xs : List Json) (z : List Char) :
    numSafe (dumpTail el xs ++ ('\n' :: z)) = true := by
  cases xs with
  | nil => rw [dumpTail]; rfl
  | cons y ys => rw [dumpTail]; rfl

theorem numSafe_dumpMTail (el : Nat) (kvs : List (String × Json)) (z : List Char) :
    numSafe (dumpMTail el kvs ++ ('\n' :: z)) = true := by
  cases kvs with
  | nil => rw [dumpMTail]; rfl
  | cons kv kvs => rw [dumpMTail]; rfl

theorem pValue_null (f : Nat) (rest : List Char) :
    pValue (f + 1) ('n' :: 'u' :: 'l' :: 'l' :: rest) = some (Json.null, rest) := rfl

theorem pValue_true (f : Nat) (rest : List Char) :
    pValue (f + 1) ('t' :: 'r' :: 'u' :: 'e' :: rest) = some (Json.bool true, rest) := rfl

theorem pValue_false (f : Nat) (rest : List Char) :
    pValue (f + 1) ('f' :: 'a' :: 'l' :: 's' :: 'e' :: rest) = some (Json.bool false, rest) :=
  rfl

theorem pValue_num (f : Nat) (i : Int) (rest : List Char) (hs : numSafe rest = true) :
    pValue (f + 1) (intL i ++ rest) = some (Json.num i, rest) := by
  by_cases hneg : i < 0
  · rw [show intL i = '-' :: natL i.natAbs by rw [intL, if_pos hneg], List.cons_append]
    simp only [pValue]
    norm_num
    rw [show '-' :: (natL i.natAbs ++ rest) = intL i ++ rest by
      rw [intL, if_pos hneg]; rfl]
    exact pNumber_intL i rest hs
  · obtain ⟨d, ds, heq, hd, _, _⟩ := natDigits_cons i.toNat
    have hcons : intL i ++ rest = digitChar d :: (ds.map digitChar ++ rest) := by
      rw [intL, if_neg hneg, natL, heq]
      rfl
    rw [hcons]
    simp only [pValue]
    rw [if_neg (digitChar_ne d hd '"' (by decide)),
      if_neg (digitChar_ne d hd '{' (by decide)),
      if_neg (digitChar_ne d hd '[' (by decide)),
      if_neg (digitChar_ne d hd 't' (by decide)),
      if_neg (digitChar_ne d hd 'f' (by decide)),
      if_neg (digitChar_ne d hd 'n' (by decide)),
      ← hcons]
    exact pNumber_intL i rest hs

theorem pValue_str (f : Nat) (s : String) (rest : List Char) :
    pValue (f + 1) (encStr s ++ rest) = some (Json.str s, rest) := by
  rw [show encStr s ++ rest = '"' :: (escList s.data ++ ('"' :: rest)) by
    rw [encStr]; simp]
  simp only [pValue]
  norm_num
  rw [pStr_encStr s rest]

theorem keysOf_append (a b : List (String × Json)) :
    keysOf (a ++ b) = keysOf a ++ keysOf b := by
  simp [keysOf]

theorem insertKey_append (acc : List (String × Json)) (k : String) (v : Json)
    (h : memS k (keysOf acc) = false) : insertKey acc k v = acc ++ [(k, v)] := by
  induction acc with
  | nil => rfl
  | cons kv rest ih =>
    simp only [keysOf, List.map_cons, memS, Bool.or_eq_false_iff,
      decide_eq_false_iff_not] at h
    rw [insertKey, if_neg h.1, ih (by simp [keysOf, h.2])]
    rfl

theorem disjoint_head (xs : List String) (y : String) (ys : List String)
    (h : disjointKeys xs (y :: ys) = true) : memS y xs = false := by
  induction xs with
  | nil => rfl
  | cons x rest ih =>
    simp only [disjointKeys, Bool.and_eq_true, Bool.not_eq_true'] at h
    simp only [memS, Bool.or_eq_false_iff, decide_eq_false_iff_not]
    constructor
    · intro hxy
      subst hxy
      simp [memS] at h
    · exact ih h.2

theorem disjoint_tail (xs : List String) (y : String) (ys : List String)
    (h : disjointKeys xs (y :: ys) = true) : disjointKeys xs ys = true := by
  induction xs with
  | nil => rfl
  | cons x rest ih =>
    simp only [disjointKeys, Bool.and_eq_true, Bool.not_eq_true'] at h ⊢
    obtain ⟨h1, h2⟩ := h
    simp only [memS, Bool.or_eq_false_iff] at h1
    exact ⟨h1.2, ih h2⟩

theorem disjoint_snoc (xs : List String) (x : String) (ys : List String)
    (h1 : disjointKeys xs ys = true) (h2 : memS x ys = false) :
    disjointKeys (xs ++ [x]) ys = true := by
  induction xs with
  | nil => simp [disjointKeys, h2]
  | cons z rest ih =>
    simp only [disjointKeys, Bool.and_eq_true] at h1 ⊢
    exact ⟨h1.1, ih h1.2⟩

theorem pValue_arr_cons (f : Nat) (inner : List Char) (c : Char) (z : List Char)
    (hskip : skipWs inner = c :: z) (hne : c ≠ ']') :
    pValue (f + 1) ('[' :: inner) = pElems f (c :: z) [] := by
  have h0 : pValue (f + 1) ('[' :: inner) =
      (match skipWs inner with
       | [] => none
       | c1 :: r1 => if c1 = ']' then some (Json.arr [], r1) else pElems f (c1 :: r1) []) := rfl
  rw [h0, hskip]
  show (if c = ']' then some (Json.arr [], z) else pElems f (c :: z) []) = pElems f (c :: z) []
  rw [if_neg hne]

theorem pValue_obj_cons (f : Nat) (inner : List Char) (c : Char) (z : List Char)
    (hskip : skipWs inner = c :: z) (hne : c ≠ '}') :
    pValue (f + 1) ('{' :: inner) = pMembs f (c :: z) [] := by
  have h0 : pValue (f + 1) ('{' :: inner) =
      (match skipWs inner with
       | [] => none
       | c1 :: r1 => if c1 = '}' then some (Json.obj [], r1) else pMembs f (c1 :: r1) []) := rfl
  rw [h0, hskip]
  show (if c = '}' then some (Json.obj [], z) else pMembs f (c :: z) []) = pMembs f (c :: z) []
  rw [if_neg hne]

theorem pElems_step (f : Nat) (cs : List Char) (acc : List Json) (x : Json) (r : List Char)
    (hv : pValue f cs = some (x, r)) (c : Char) (r2 : List Char)
    (hskip : skipWs r = c :: r2) :
    pElems (f + 1) cs acc =
      (if c = ',' then pElems f (skipWs r2) (acc ++ [x])
       else if c = ']' then some (Json.arr (acc ++ [x]), r2) else none) := by
  simp only [pElems, hv, hskip]

theorem pMembs_step (f : Nat) (r : List Char) (acc : List (String × Json))
    (k : String) (r1 r2 : List Char) (v : Json) (r3 : List Char)
    (c3 : Char) (r4 : List Char)
    (hk : pStr [] r = some (k, r1))
    (hc : skipWs r1 = ':' :: r2)
    (hv : pValue f (skipWs r2) = some (v, r3))
    (hs : skipWs r3 = c3 :: r4) :
    pMembs (f + 1) ('"' :: r) acc =
      (if c3 = ',' then pMembs f (skipWs r4) (insertKey acc k v)
       else if c3 = '}' then some (Json.obj (insertKey acc k v), r4) else none) := by
  simp only [pMembs, hk, hc, hv, hs, eq_self_iff_true, if_true]

theorem pMembs_step2 (f : Nat) (acc : List (String × Json)) (k : String) (v : Json)
    (w rest3 : List Char) (c3 : Char) (r4 : List Char)
    (hv : pValue f (skipWs (' ' :: w)) = some (v, rest3))
    (hs : skipWs rest3 = c3 :: r4) :
    pMembs (f + 1) ('"' :: (escList k.data ++ ('"' :: (':' :: (' ' :: w))))) acc =
      (if c3 = ',' then pMembs f (skipWs r4) (insertKey acc k v)
       else if c3 = '}' then some (Json.obj (insertKey acc k v), r4) else none) :=
  pMembs_step f _ acc k (':' :: (' ' :: w)) (' ' :: w) v rest3 c3 r4
    (pStr_encStr k _) (skipWs_cons_not ':' (by decide) _) hv hs

theorem skipWs_head_not (X z : List Char) (c : Char) (cs : List Char)
    (h : X = c :: cs) (hn : isJsonWs c = false) : skipWs (X ++ z) = X ++ z := by
  subst h
  rw [List.cons_append, skipWs_cons_not c hn]

theorem skipWs_dumpL (el : Nat) (j : Json) (z : List Char) :
    skipWs (dumpL el j ++ z) = dumpL el j ++ z := by
  obtain ⟨c, cs, h, hn, _, _⟩ := dumpL_head el j
  exact skipWs_head_not _ z c cs h hn

theorem skipWs_encStr (k : String) (z : List Char) :
    skipWs (encStr k ++ z) = encStr k ++ z :=
  skipWs_head_not _ z '"' (escList k.data ++ ['"']) (by rw [encStr]) (by decide)

theorem rt_parse : ∀ (fuel : Nat),
    (∀ (j : Json) (lvl : Nat) (rest : List Char), wf j = true → jsize j ≤ fuel →
      numSafe rest = true →
      pValue fuel (dumpL lvl j ++ rest) = some (j, rest)) ∧
    (∀ (x : Json) (xs : List Json) (acc : List Json) (el : Nat) (wsl rest : List Char),
      wf x = true → wfList xs = true → lsize (x :: xs) ≤ fuel →
      (∀ c ∈ wsl, isJsonWs c = true) →
      pElems fuel (dumpL el x ++ (dumpTail el xs ++ ('\n' :: (wsl ++ (']' :: rest))))) acc =
        some (Json.arr (acc ++ x :: xs), rest)) ∧
    (∀ (k : String) (v : Json) (kvs : List (String × Json)) (acc : List (String × Json))
        (el : Nat) (wsl rest : List Char),
      wf v = true → wfPairs kvs = true →
      nodupKeys (keysOf ((k, v) :: kvs)) = true →
      disjointKeys (keysOf acc) (keysOf ((k, v) :: kvs)) = true →
      psize ((k, v) :: kvs) ≤ fuel →
      (∀ c ∈ wsl, isJsonWs c = true) →
      pMembs fuel (encStr k ++ (':' :: ' ' :: (dumpL el v ++ (dumpMTail el kvs ++
        ('\n' :: (wsl ++ ('}' :: rest))))))) acc =
        some (Json.obj (acc ++ (k, v) :: kvs), rest)) := by
  intro fuel
  induction fuel with
  | zero =>
    refine ⟨?_, ?_, ?_⟩
    · intro j _ _ _ hsz _
      exact absurd hsz (by have := jsize_pos j; omega)
    · intro x xs _ _ _ _ _ _ hsz _
      exact absurd hsz (by have := lsize_pos (x :: xs); omega)
    · intro k v kvs _ _ _ _ _ _ _ _ hsz _
      exact absurd hsz (by have := psize_pos ((k, v) :: kvs); omega)
  | succ f ih =>
    obtain ⟨ihP, ihQ, ihR⟩ := ih
    refine ⟨?_, ?_, ?_⟩
    · intro j lvl rest hwf hsz hns
      cases j with
      | null =>
        rw [show dumpL lvl Json.null = ['n', 'u', 'l', 'l'] by rw [dumpL]]
        exact pValue_null f rest
      | bool b =>
        cases b with
        | true =>
          rw [show dumpL lvl (Json.bool true) = ['t', 'r', 'u', 'e'] by rw [dumpL]]
          exact pValue_true f rest
        | false =>
          rw [show dumpL lvl (Json.bool false) = ['f', 'a', 'l', 's', 'e'] by rw [dumpL]]
          exact pValue_false f rest
      | num n =>
        rw [show dumpL lvl (Json.num n) = intL n by rw [dumpL]]
        exact pValue_num f n rest hns
      | str s =>
        rw [show dumpL lvl (Json.str s) = encStr s by rw [dumpL]]
        exact pValue_str f s rest
      | arr xs =>
        cases xs with
        | nil =>
          rw [show dumpL lvl (Json.arr []) = ['[', ']'] by rw [dumpL]]
          rfl
        | cons x xs =>
          rw [show dumpL lvl (Json.arr (x :: xs)) = '[' :: '\n' :: (indChars (lvl + 1) ++
            (dumpL (lvl + 1) x ++ (dumpTail (lvl + 1) xs ++
              ('\n' :: (indChars lvl ++ [']']))))) by rw [dumpL]]
          rw [show ('[' :: '\n' :: (indChars (lvl + 1) ++
              (dumpL (lvl + 1) x ++ (dumpTail (lvl + 1) xs ++
                ('\n' :: (indChars lvl ++ [']'])))))) ++ rest =
              '[' :: ('\n' :: (indChars (lvl + 1) ++ (dumpL (lvl + 1) x ++
                (dumpTail (lvl + 1) xs ++ ('\n' :: (indChars lvl ++ (']' :: rest))))))) by
            simp]
          obtain ⟨c, cs, hdx, hnws, hnbr, _⟩ := dumpL_head (lvl + 1) x
          have hskip : skipWs ('\n' :: (indChars (lvl + 1) ++ (dumpL (lvl + 1) x ++
              (dumpTail (lvl + 1) xs ++ ('\n' :: (indChars lvl ++ (']' :: rest))))))) =
              c :: (cs ++ (dumpTail (lvl + 1) xs ++
                ('\n' :: (indChars lvl ++ (']' :: rest))))) := by
            rw [skipWs_cons_ws '\n' rfl, skipWs_ind_append, skipWs_dumpL, hdx,
              List.cons_append]
          rw [pValue_arr_cons f _ c _ hskip hnbr,
            show c :: (cs ++ (dumpTail (lvl + 1) xs ++
              ('\n' :: (indChars lvl ++ (']' :: rest))))) =
              dumpL (lvl + 1) x ++ (dumpTail (lvl + 1) xs ++
                ('\n' :: (indChars lvl ++ (']' :: rest)))) by rw [hdx, List.cons_append]]
          rw [wf] at hwf
          rw [wfList, Bool.and_eq_true] at hwf
          rw [jsize] at hsz
          rw [ihQ x xs [] (lvl + 1) (indChars lvl) rest hwf.1 hwf.2 (by omega)
            (indChars_ws lvl)]
          simp
      | obj kvs =>
        cases kvs with
        | nil =>
          rw [show dumpL lvl (Json.obj []) = ['{', '}'] by rw [dumpL]]
          rfl
        | cons kv kvs =>
          obtain ⟨k, v⟩ := kv
          rw [show dumpL lvl (Json.obj ((k, v) :: kvs)) = '{' :: '\n' :: (indChars (lvl + 1) ++
            (encStr k ++ (':' :: ' ' :: (dumpL (lvl + 1) v ++ (dumpMTail (lvl + 1) kvs ++
              ('\n' :: (indChars lvl ++ ['}']))))))) by rw [dumpL]]
          rw [show ('{' :: '\n' :: (indChars (lvl + 1) ++
              (encStr k ++ (':' :: ' ' :: (dumpL (lvl + 1) v ++ (dumpMTail (lvl + 1) kvs ++
                ('\n' :: (indChars lvl ++ ['}'])))))))) ++ rest =
              '{' :: ('\n' :: (indChars (lvl + 1) ++ (encStr k ++ (':' :: ' ' ::
                (dumpL (lvl + 1) v ++ (dumpMTail (lvl + 1) kvs ++
                  ('\n' :: (indChars lvl ++ ('}' :: rest))))))))) by simp]
          have hskip : skipWs ('\n' :: (indChars (lvl + 1) ++ (encStr k ++ (':' :: ' ' ::
              (dumpL (lvl + 1) v ++ (dumpMTail (lvl + 1) kvs ++
                ('\n' :: (indChars lvl ++ ('}' :: rest))))))))) =
              '"' :: ((escList k.data ++ ['"']) ++ (':' :: ' ' ::
                (dumpL (lvl + 1) v ++ (dumpMTail (lvl + 1) kvs ++
                  ('\n' :: (indChars lvl ++ ('}' :: rest))))))) := by
            rw [skipWs_cons_ws '\n' rfl, skipWs_ind_append, skipWs_encStr,
              show encStr k ++ (':' :: ' ' :: (dumpL (lvl + 1) v ++ (dumpMTail (lvl + 1) kvs ++
                ('\n' :: (indChars lvl ++ ('}' :: rest)))))) =
                '"' :: ((escList k.data ++ ['"']) ++ (':' :: ' ' ::
                  (dumpL (lvl + 1) v ++ (dumpMTail (lvl + 1) kvs ++
                    ('\n' :: (indChars lvl ++ ('}' :: rest))))))) by rw [encStr]; simp]
          rw [pValue_obj_cons f _ '"' _ hskip (by decide),
            show '"' :: ((escList k.data ++ ['"']) ++ (':' :: ' ' ::
              (dumpL (lvl + 1) v ++ (dumpMTail (lvl + 1) kvs ++
                ('\n' :: (indChars lvl ++ ('}' :: rest))))))) =
              encStr k ++ (':' :: ' ' :: (dumpL (lvl + 1) v ++ (dumpMTail (lvl + 1) kvs ++
                ('\n' :: (indChars lvl ++ ('}' :: rest)))))) by rw [encStr]; simp]
          rw [wf, Bool.and_eq_true] at hwf
          obtain ⟨hnd, hwp⟩ := hwf
          rw [wfPairs, Bool.and_eq_true] at hwp
          rw [jsize] at hsz
          rw [ihR k v kvs [] (lvl + 1) (indChars lvl) rest hwp.1 hwp.2 hnd rfl (by omega)
            (indChars_ws lvl)]
          simp
    · intro x xs acc el wsl rest hwx hwxs hsz hwsl
      have hszx : jsize x ≤ f := by
        rw [lsize] at hsz
        have := lsize_pos xs
        omega
      have hv := ihP x el (dumpTail el xs ++ ('\n' :: (wsl ++ (']' :: rest)))) hwx hszx
        (numSafe_dumpTail el xs _)
      cases xs with
      | nil =>
        have hskip : skipWs (dumpTail el ([] : List Json) ++
            ('\n' :: (wsl ++ (']' :: rest)))) = ']' :: rest := by
          rw [show dumpTail el ([] : List Json) = [] by rw [dumpTail], List.nil_append,
            skipWs_cons_ws '\n' rfl, skipWs_ws_append hwsl, skipWs_cons_not ']' (by decide)]
        rw [pElems_step f _ acc x _ hv ']' rest hskip, if_neg (by decide), if_pos rfl]
      | cons y ys =>
        have hskip : skipWs (dumpTail el (y :: ys) ++ ('\n' :: (wsl ++ (']' :: rest)))) =
            ',' :: (('\n' :: (indChars el ++ (dumpL el y ++ dumpTail el ys))) ++
              ('\n' :: (wsl ++ (']' :: rest)))) := by
          rw [show dumpTail el (y :: ys) =
            ',' :: '\n' :: (indChars el ++ (dumpL el y ++ dumpTail el ys)) by rw [dumpTail]]
          rw [List.cons_append, skipWs_cons_not ',' (by decide)]
        rw [pElems_step f _ acc x _ hv ',' _ hskip, if_pos rfl]
        have hskip2 : skipWs ((('\n' :: (indChars el ++ (dumpL el y ++ dumpTail el ys))) ++
            ('\n' :: (wsl ++ (']' :: rest))))) =
            dumpL el y ++ (dumpTail el ys ++ ('\n' :: (wsl ++ (']' :: rest)))) := by
          simp only [List.cons_append, List.append_assoc]
          rw [skipWs_cons_ws '\n' rfl, skipWs_ind_append, skipWs_dumpL]
        rw [hskip2]
        rw [wfList, Bool.and_eq_true] at hwxs
        have hlsz : lsize (y :: ys) ≤ f := by
          rw [lsize] at hsz
          have := jsize_pos x
          omega
        rw [ihQ y ys (acc ++ [x]) el wsl rest hwxs.1 hwxs.2 hlsz hwsl]
        simp
    · intro k v kvs acc el wsl rest hwv hwkvs hnd hdisj hsz hwsl
      obtain ⟨cv, csv, hdv, hnwsv, _, _⟩ := dumpL_head el v
      have hszv : jsize v ≤ f := by
        rw [psize] at hsz
        have hsz2 : 1 + jsize v + psize kvs ≤ f + 1 := hsz
        have := psize_pos kvs
        omega
      have hin : encStr k ++ (':' :: ' ' :: (dumpL el v ++ (dumpMTail el kvs ++
          ('\n' :: (wsl ++ ('}' :: rest)))))) =
          '"' :: (escList k.data ++ ('"' :: (':' :: ' ' :: (dumpL el v ++ (dumpMTail el kvs ++
            ('\n' :: (wsl ++ ('}' :: rest)))))))) := by
        rw [encStr]
        simp
      rw [hin]
      have hskipInner : skipWs (' ' :: (dumpL el v ++ (dumpMTail el kvs ++
          ('\n' :: (wsl ++ ('}' :: rest)))))) =
          dumpL el v ++ (dumpMTail el kvs ++ ('\n' :: (wsl ++ ('}' :: rest)))) := by
        rw [skipWs_cons_ws ' ' rfl, skipWs_dumpL]
      have hv2 : pValue f (skipWs (' ' :: (dumpL el v ++ (dumpMTail el kvs ++
          ('\n' :: (wsl ++ ('}' :: rest))))))) =
          some (v, dumpMTail el kvs ++ ('\n' :: (wsl ++ ('}' :: rest)))) := by
        rw [hskipInner]
        exact ihP v el _ hwv hszv (numSafe_dumpMTail el kvs _)
      have hmem : memS k (keysOf acc) = false :=
        disjoint_head (keysOf acc) k (keysOf kvs) hdisj
      cases kvs with
      | nil =>
        have hsafter : skipWs (dumpMTail el ([] : List (String × Json)) ++
            ('\n' :: (wsl ++ ('}' :: rest)))) = '}' :: rest := by
          rw [show dumpMTail el ([] : List (String × Json)) = [] by rw [dumpMTail],
            List.nil_append, skipWs_cons_ws '\n' rfl, skipWs_ws_append hwsl,
            skipWs_cons_not '}' (by decide)]
        rw [pMembs_step2 f acc k v _ _ '}' rest hv2 hsafter,
          if_neg (by decide), if_pos rfl, insertKey_append acc k v hmem]
      | cons kv2 kvs2 =>
        obtain ⟨k2, v2⟩ := kv2
        have hsafter : skipWs (dumpMTail el ((k2, v2) :: kvs2) ++
            ('\n' :: (wsl ++ ('}' :: rest)))) =
            ',' :: (('\n' :: (indChars el ++ (encStr k2 ++ (':' :: ' ' ::
              (dumpL el v2 ++ dumpMTail el kvs2))))) ++ ('\n' :: (wsl ++ ('}' :: rest)))) := by
          rw [show dumpMTail el ((k2, v2) :: kvs2) = ',' :: '\n' :: (indChars el ++
            (encStr k2 ++ (':' :: ' ' :: (dumpL el v2 ++ dumpMTail el kvs2)))) by
            rw [dumpMTail]]
          rw [List.cons_append, skipWs_cons_not ',' (by decide)]
        rw [pMembs_step2 f acc k v _ _ ',' _ hv2 hsafter, if_pos rfl]
        have hskip4 : skipWs ((('\n' :: (indChars el ++ (encStr k2 ++ (':' :: ' ' ::
            (dumpL el v2 ++ dumpMTail el kvs2))))) ++ ('\n' :: (wsl ++ ('}' :: rest))))) =
            encStr k2 ++ (':' :: ' ' :: (dumpL el v2 ++ (dumpMTail el kvs2 ++
              ('\n' :: (wsl ++ ('}' :: rest)))))) := by
          simp only [List.cons_append, List.append_assoc]
          rw [skipWs_cons_ws '\n' rfl, skipWs_ind_append, skipWs_encStr]
        rw [hskip4]
        rw [wfPairs, Bool.and_eq_true] at hwkvs
        rw [show keysOf ((k, v) :: (k2, v2) :: kvs2) =
          k :: keysOf ((k2, v2) :: kvs2) from rfl] at hnd hdisj
        rw [nodupKeys, Bool.and_eq_true, Bool.not_eq_true'] at hnd
        obtain ⟨hmemk, hnd2⟩ := hnd
        have hdisj2 : disjointKeys (keysOf (insertKey acc k v))
            (keysOf ((k2, v2) :: kvs2)) = true := by
          rw [insertKey_append acc k v hmem, keysOf_append]
          exact disjoint_snoc (keysOf acc) k (keysOf ((k2, v2) :: kvs2))
            (disjoint_tail (keysOf acc) k (keysOf ((k2, v2) :: kvs2)) hdisj) hmemk
        have hpsz : psize ((k2, v2) :: kvs2) ≤ f := by
          rw [psize] at hsz
          have := jsize_pos v
          omega
        rw [ihR k2 v2 kvs2 (insertKey acc k v) el wsl rest hwkvs.1 hwkvs.2 hnd2 hdisj2
          hpsz hwsl, insertKey_append acc k v hmem]
        simp

theorem wfList_iff (l : List Json) : wfList l = true ↔ ∀ x ∈ l, wf x = true := by
  induction l with
  | nil => simp [wfList]
  | cons x xs ih =>
    rw [wfList, Bool.and_eq_true, ih]
    constructor
    · rintro ⟨h1, h2⟩ y hy
      rcases List.mem_cons.mp hy with h | h
      · rwa [h]
      · exact h2 y h
    · intro h
      exact ⟨h x (by simp), fun y hy => h y (by simp [hy])⟩

theorem wfPairs_iff (l : List (String × Json)) :
    wfPairs l = true ↔ ∀ p ∈ l, wf p.2 = true := by
  induction l with
  | nil => simp [wfPairs]
  | cons kv kvs ih =>
    rw [wfPairs, Bool.and_eq_true, ih]
    constructor
    · rintro ⟨h1, h2⟩ p hp
      rcases List.mem_cons.mp hp with h | h
      · rwa [h]
      · exact h2 p h
    · intro h
      exact ⟨h kv (by simp), fun p hp => h p (by simp [hp])⟩

theorem insertKey_wf (acc : List (String × Json)) (k : String) (v : Json)
    (hacc : ∀ p ∈ acc, wf p.2 = true) (hv : wf v = true) :
    ∀ p ∈ insertKey acc k v, wf p.2 = true := by
  induction acc with
  | nil =>
    intro p hp
    simp [insertKey] at hp
    rw [hp]
    exact hv
  | cons kv rest ih =>
    intro p hp
    rw [insertKey] at hp
    by_cases hk : kv.1 = k
    · rw [if_pos hk] at hp
      rcases List.mem_cons.mp hp with h | h
      · rw [h]
        exact hv
      · exact hacc p (by simp [h])
    · rw [if_neg hk] at hp
      rcases List.mem_cons.mp hp with h | h
      · exact hacc p (by rw [h]; simp)
      · exact ih (fun q hq => hacc q (by simp [hq])) p h

theorem insertKey_keys_mem (acc : List (String × Json)) (k : String) (v : Json)
    (h : memS k (keysOf acc) = true) : keysOf (insertKey acc k v) = keysOf acc := by
  induction acc with
  | nil => simp [keysOf, memS] at h
  | cons kv rest ih =>
    rw [insertKey]
    by_cases hk : kv.1 = k
    · rw [if_pos hk]
      rfl
    · rw [if_neg hk]
      simp only [keysOf, List.map_cons] at h ⊢
      rw [memS] at h
      have : memS k (keysOf rest) = true := by
        rcases Bool.or_eq_true_iff.mp h with h1 | h1
        · exact absurd (of_decide_eq_true h1) hk
        · exact h1
      rw [show List.map Prod.fst (insertKey rest k v) = keysOf (insertKey rest k v) from rfl,
        ih this]
      rfl

theorem memS_append (a : String) (xs ys : List String) :
    memS a (xs ++ ys) = (memS a xs || memS a ys) := by
  induction xs with
  | nil => rfl
  | cons z zs ih => rw [List.cons_append, memS, memS, ih, Bool.or_assoc]

theorem nodup_snoc (ks : List String) (k : String) (h1 : nodupKeys ks = true)
    (h2 : memS k ks = false) : nodupKeys (ks ++ [k]) = true := by
  induction ks with
  | nil => rfl
  | cons x xs ih =>
    rw [nodupKeys, Bool.and_eq_true] at h1
    rw [memS, Bool.or_eq_false_iff] at h2
    rw [List.cons_append, nodupKeys, Bool.and_eq_true]
    refine ⟨?_, ih h1.2 h2.2⟩
    rw [Bool.not_eq_true']
    have hx : memS x xs = false := by
      have := h1.1
      rwa [Bool.not_eq_true'] at this
    rw [memS_append, hx, memS, memS]
    have hkx : decide (k = x) = false :=
      decide_eq_false (fun hkx => (of_decide_eq_false h2.1) hkx.symm)
    simp [hkx]

theorem insertKey_nodup (acc : List (String × Json)) (k : String) (v : Json)
    (h : nodupKeys (keysOf acc) = true) :
    nodupKeys (keysOf (insertKey acc k v)) = true := by
  by_cases hm : memS k (keysOf acc) = true
  · rw [insertKey_keys_mem acc k v hm]
    exact h
  · rw [insertKey_append acc k v (by rwa [Bool.not_eq_true] at hm), keysOf_append]
    exact nodup_snoc (keysOf acc) k h (by rwa [Bool.not_eq_true] at hm)

theorem pNumber_shape (cs : List Char) (j : Json) (r : List Char)
    (h : pNumber cs = some (j, r)) : ∃ n : Int, j = Json.num n := by
  cases cs with
  | nil => exact absurd h (by simp [pNumber])
  | cons c rest =>
    simp only [pNumber] at h
    by_cases hc : c = '-'
    · rw [if_pos hc] at h
      cases hp : pNat rest with
      | none => rw [hp] at h; exact absurd h (by simp)
      | some p =>
        rw [hp] at h
        simp at h
        exact ⟨_, h.1.symm⟩
    · rw [if_neg hc] at h
      cases hp : pNat (c :: rest) with
      | none => rw [hp] at h; exact absurd h (by simp)
      | some p =>
        rw [hp] at h
        simp at h
        exact ⟨_, h.1.symm⟩

theorem parse_wf : ∀ (fuel : Nat),
    (∀ (cs : List Char) (j : Json) (r : List Char),
      pValue fuel cs = some (j, r) → wf j = true) ∧
    (∀ (cs : List Char) (acc : List Json) (j : Json) (r : List Char),
      (∀ x ∈ acc, wf x = true) → pElems fuel cs acc = some (j, r) → wf j = true) ∧
    (∀ (cs : List Char) (acc : List (String × Json)) (j : Json) (r : List Char),
      (∀ p ∈ acc, wf p.2 = true) → nodupKeys (keysOf acc) = true →
      pMembs fuel cs acc = some (j, r) → wf j = true) := by
  intro fuel
  induction fuel with
  | zero =>
    refine ⟨?_, ?_, ?_⟩
    · intro cs j r h
      exact absurd h (by simp [pValue])
    · intro cs acc j r _ h
      exact absurd h (by simp [pElems])
    · intro cs acc j r _ _ h
      exact absurd h (by simp [pMembs])
  | succ f ih =>
    obtain ⟨ihP, ihQ, ihR⟩ := ih
    refine ⟨?_, ?_, ?_⟩
    · intro cs j r h
      cases cs with
      | nil => exact absurd h (by simp [pValue])
      | cons c rest =>
        simp only [pValue] at h
        by_cases h1 : c = '"'
        · rw [if_pos h1] at h
          cases hp : pStr [] rest with
          | none => rw [hp] at h; exact absurd h (by simp)
          | some p =>
            obtain ⟨s, r0⟩ := p
            rw [hp] at h
            simp at h
            rw [← h.1, wf]
        · rw [if_neg h1] at h
          by_cases h2 : c = '{'
          · rw [if_pos h2] at h
            cases hsw : skipWs rest with
            | nil => rw [hsw] at h; exact absurd h (by simp)
            | cons c1 r1 =>
              rw [hsw] at h
              simp only [] at h
              by_cases h3 : c1 = '}'
              · rw [if_pos h3] at h
                simp at h
                rw [← h.1, wf, wfPairs]
                rfl
              · rw [if_neg h3] at h
                exact ihR (c1 :: r1) [] j r (by simp) rfl h
          · rw [if_neg h2] at h
            by_cases h3 : c = '['
            · rw [if_pos h3] at h
              cases hsw : skipWs rest with
              | nil => rw [hsw] at h; exact absurd h (by simp)
              | cons c1 r1 =>
                rw [hsw] at h
                simp only [] at h
                by_cases h4 : c1 = ']'
                · rw [if_pos h4] at h
                  simp at h
                  rw [← h.1, wf, wfList]
                · rw [if_neg h4] at h
                  exact ihQ (c1 :: r1) [] j r (by simp) h
            · rw [if_neg h3] at h
              by_cases h4 : c = 't'
              · rw [if_pos h4] at h
                cases he : expectLit ['r', 'u', 'e'] rest with
                | none => rw [he] at h; exact absurd h (by simp)
                | some r0 =>
                  rw [he] at h
                  simp at h
                  rw [← h.1, wf]
              · rw [if_neg h4] at h
                by_cases h5 : c = 'f'
                · rw [if_pos h5] at h
                  cases he : expectLit ['a', 'l', 's', 'e'] rest with
                  | none => rw [he] at h; exact absurd h (by simp)
                  | some r0 =>
                    rw [he] at h
                    simp at h
                    rw [← h.1, wf]
                · rw [if_neg h5] at h
                  by_cases h6 : c = 'n'
                  · rw [if_pos h6] at h
                    cases he : expectLit ['u', 'l', 'l'] rest with
                    | none => rw [he] at h; exact absurd h (by simp)
                    | some r0 =>
                      rw [he] at h
                      simp at h
                      rw [← h.1, wf]
                  · rw [if_neg h6] at h
                    obtain ⟨n, hn⟩ := pNumber_shape _ _ _ h
                    rw [hn, wf]
    · intro cs acc j r hacc h
      cases hp : pValue f cs with
      | none => rw [pElems, hp] at h; exact absurd h (by simp)
      | some p =>
        obtain ⟨x, r0⟩ := p
        have hwx := ihP cs x r0 hp
        rw [pElems, hp] at h
        simp only [] at h
        cases hsw : skipWs r0 with
        | nil => rw [hsw] at h; exact absurd h (by simp)
        | cons c1 r2 =>
          rw [hsw] at h
          simp only [] at h
          by_cases h1 : c1 = ','
          · rw [if_pos h1] at h
            refine ihQ _ (acc ++ [x]) j r (fun y hy => ?_) h
            rcases List.mem_append.mp hy with hy | hy
            · exact hacc y hy
            · simp at hy
              rwa [hy]
          · rw [if_neg h1] at h
            by_cases h2 : c1 = ']'
            · rw [if_pos h2] at h
              simp at h
              rw [← h.1, wf]
              refine (wfList_iff _).2 (fun y hy => ?_)
              rcases List.mem_append.mp hy with hy | hy
              · exact hacc y hy
              · simp at hy
                rwa [hy]
            · rw [if_neg h2] at h
              exact absurd h (by simp)
    · intro cs acc j r hacc hnd h
      cases cs with
      | nil => exact absurd h (by simp [pMembs])
      | cons c rest =>
        simp only [pMembs] at h
        by_cases h1 : c = '"'
        · rw [if_pos h1] at h
          cases hk : pStr [] rest with
          | none => rw [hk] at h; exact absurd h (by simp)
          | some p =>
            obtain ⟨k, r1⟩ := p
            rw [hk] at h
            simp only [] at h
            cases hsw : skipWs r1 with
            | nil => rw [hsw] at h; exact absurd h (by simp)
            | cons c2 r2 =>
              rw [hsw] at h
              simp only [] at h
              by_cases h2 : c2 = ':'
              · rw [if_pos h2] at h
                cases hv : pValue f (skipWs r2) with
                | none => rw [hv] at h; exact absurd h (by simp)
                | some q =>
                  obtain ⟨v, r3⟩ := q
                  have hwv := ihP _ v r3 hv
                  rw [hv] at h
                  simp only [] at h
                  cases hsw2 : skipWs r3 with
                  | nil => rw [hsw2] at h; exact absurd h (by simp)
                  | cons c3 r4 =>
                    rw [hsw2] at h
                    simp only [] at h
                    by_cases h3 : c3 = ','
                    · rw [if_pos h3] at h
                      exact ihR _ (insertKey acc k v) j r
                        (insertKey_wf acc k v hacc hwv)
                        (insertKey_nodup acc k v hnd) h
                    · rw [if_neg h3] at h
                      by_cases h4 : c3 = '}'
                      · rw [if_pos h4] at h
                        simp at h
                        rw [← h.1, wf, Bool.and_eq_true]
                        exact ⟨insertKey_nodup acc k v hnd,
                          (wfPairs_iff _).2 (insertKey_wf acc k v hacc hwv)⟩
                      · rw [if_neg h4] at h
                        exact absurd h (by simp)
              · rw [if_neg h2] at h
                exact absurd h (by simp)
        · rw [if_neg h1] at h
          exact absurd h (by simp)

theorem size_le_len : ∀ (n : Nat),
    (∀ (j : Json) (lvl : Nat), jsize j ≤ n → jsize j ≤ (dumpL lvl j).length + 1) ∧
    (∀ (xs : List Json) (lvl : Nat), lsize xs ≤ n →
      lsize xs ≤ (dumpTail lvl xs).length + 2) ∧
    (∀ (kvs : List (String × Json)) (lvl : Nat), psize kvs ≤ n →
      psize kvs ≤ (dumpMTail lvl kvs).length + 2) := by
  intro n
  induction n with
  | zero =>
    refine ⟨fun j _ h => absurd h (by have := jsize_pos j; omega),
      fun xs _ h => absurd h (by have := lsize_pos xs; omega),
      fun kvs _ h => absurd h (by have := psize_pos kvs; omega)⟩
  | succ n ih =>
    obtain ⟨ihJ, ihL, ihM⟩ := ih
    refine ⟨?_, ?_, ?_⟩
    · intro j lvl hsz
      cases j with
      | null => rw [jsize]; omega
      | bool b => rw [jsize]; omega
      | num m => rw [jsize]; omega
      | str s => rw [jsize]; omega
      | arr xs =>
        cases xs with
        | nil =>
          rw [jsize, lsize, show dumpL lvl (Json.arr []) = ['[', ']'] by rw [dumpL]]
          simp
        | cons x xs =>
          rw [jsize, lsize] at hsz ⊢
          rw [show dumpL lvl (Json.arr (x :: xs)) = '[' :: '\n' :: (indChars (lvl + 1) ++
            (dumpL (lvl + 1) x ++ (dumpTail (lvl + 1) xs ++
              ('\n' :: (indChars lvl ++ [']']))))) by rw [dumpL]]
          have h1 := ihJ x (lvl + 1) (by have := lsize_pos xs; omega)
          have h2 := ihL xs (lvl + 1) (by have := jsize_pos x; omega)
          simp only [List.length_cons, List.length_append, List.length_singleton]
          omega
      | obj kvs =>
        cases kvs with
        | nil =>
          rw [jsize, psize, show dumpL lvl (Json.obj []) = ['{', '}'] by rw [dumpL]]
          simp
        | cons kv kvs =>
          rw [jsize, psize] at hsz ⊢
          rw [show dumpL lvl (Json.obj (kv :: kvs)) = '{' :: '\n' :: (indChars (lvl + 1) ++
            (encStr kv.1 ++ (':' :: ' ' :: (dumpL (lvl + 1) kv.2 ++
              (dumpMTail (lvl + 1) kvs ++ ('\n' :: (indChars lvl ++ ['}'])))))))
            by rw [dumpL]]
          have h1 := ihJ kv.2 (lvl + 1) (by have := psize_pos kvs; omega)
          have h2 := ihM kvs (lvl + 1) (by have := jsize_pos kv.2; omega)
          simp only [List.length_cons, List.length_append, List.length_singleton]
          omega
    · intro xs lvl hsz
      cases xs with
      | nil =>
        rw [lsize, show dumpTail lvl ([] : List Json) = [] by rw [dumpTail]]
        simp
      | cons x xs =>
        rw [lsize] at hsz ⊢
        rw [show dumpTail lvl (x :: xs) = ',' :: '\n' :: (indChars lvl ++
          (dumpL lvl x ++ dumpTail lvl xs)) by rw [dumpTail]]
        have h1 := ihJ x lvl (by have := lsize_pos xs; omega)
        have h2 := ihL xs lvl (by have := jsize_pos x; omega)
        simp only [List.length_cons, List.length_append]
        omega
    · intro kvs lvl hsz
      cases kvs with
      | nil =>
        rw [psize, show dumpMTail lvl ([] : List (String × Json)) = [] by rw [dumpMTail]]
        simp
      | cons kv kvs =>
        rw [psize] at hsz ⊢
        rw [show dumpMTail lvl (kv :: kvs) = ',' :: '\n' :: (indChars lvl ++
          (encStr kv.1 ++ (':' :: ' ' :: (dumpL lvl kv.2 ++ dumpMTail lvl kvs))))
          by rw [dumpMTail]]
        have h1 := ihJ kv.2 lvl (by have := psize_pos kvs; omega)
        have h2 := ihM kvs lvl (by have := jsize_pos kv.2; omega)
        simp only [List.length_cons, List.length_append]
        omega

theorem loads_dumps (j : Json) (hwf : wf j = true) : loads (dumps j) = some j := by
  rw [loads]
  show (match pValue ((dumpL 0 j).length + 2) (skipWs (dumpL 0 j)) with
    | some (j2, r) => if skipWs r = [] then some j2 else none
    | none => none) = some j
  obtain ⟨c, cs, hd, hnws, _, _⟩ := dumpL_head 0 j
  have hskip : skipWs (dumpL 0 j) = dumpL 0 j := by
    rw [hd]
    exact skipWs_cons_not c hnws cs
  rw [hskip]
  have hfuel := (size_le_len (jsize j)).1 j 0 le_rfl
  have hp := (rt_parse ((dumpL 0 j).length + 2)).1 j 0 [] hwf (by omega) rfl
  rw [List.append_nil] at hp
  rw [hp]
  rfl

theorem loads_wf (s : String) (j : Json) (h : loads s = some j) : wf j = true := by
  rw [loads] at h
  cases hp : pValue (s.data.length + 2) (skipWs s.data) with
  | none => rw [hp] at h; exact absurd h (by simp)
  | some p =>
    obtain ⟨j2, r⟩ := p
    rw [hp] at h
    simp only [] at h
    by_cases hr : skipWs r = []
    · rw [if_pos hr] at h
      simp at h
      rw [← h]
      exact (parse_wf (s.data.length + 2)).1 _ j2 r hp
    · rw [if_neg hr] at h
      exact absurd h (by simp)

theorem loadsBytes_wf (body : List Nat) (P : Json) (h : loadsBytes body = some P) :
    wf P = true := by
  rw [loadsBytes] at h
  cases hu : utf8Decode body with
  | none => rw [hu] at h; exact absurd h (by simp)
  | some cs =>
    rw [hu] at h
    simp only [] at h
    exact loads_wf (String.mk cs) P h

theorem hexDigChar_ascii (d : Nat) (h : d < 16) : isAsciiCh (hexDigChar d) = true := by
  interval_cases d <;> decide

theorem digitChar_ascii (d : Nat) (h : d < 10) : isAsciiCh (digitChar d) = true := by
  interval_cases d <;> decide

theorem escL_ascii (c : Char) : (escL c).all isAsciiCh = true := by
  rw [escL]
  split_ifs with h1 h2 h3 h4 h5 h6 h7 h8 h9
  · decide
  · decide
  · decide
  · decide
  · decide
  · decide
  · decide
  · simp only [List.all_cons, List.all_nil, Bool.and_true, isAsciiCh,
      decide_eq_true_eq]
    omega
  · simp only [hex4, List.all_cons, List.all_nil, Bool.and_true, Bool.and_eq_true]
    refine ⟨by decide, by decide, ?_, ?_, ?_, ?_⟩ <;>
      exact hexDigChar_ascii _ (by omega)
  · rw [List.all_append]
    simp only [hex4, List.all_cons, List.all_nil, Bool.and_true, Bool.and_eq_true]
    refine ⟨⟨by decide, by decide, ?_, ?_, ?_, ?_⟩, by decide, by decide, ?_, ?_, ?_, ?_⟩ <;>
      exact hexDigChar_ascii _ (by omega)

theorem escList_ascii (cs : List Char) : (escList cs).all isAsciiCh = true := by
  induction cs with
  | nil => rfl
  | cons c cs ih =>
    rw [escList, List.all_append, escL_ascii, ih]
    rfl

theorem encStr_ascii (s : String) : (encStr s).all isAsciiCh = true := by
  rw [encStr]
  simp only [List.all_cons, List.all_append, escList_ascii]
  decide

theorem natL_ascii (n : Nat) : (natL n).all isAsciiCh = true := by
  rw [natL, List.all_eq_true]
  intro c hc
  obtain ⟨d, hd, rfl⟩ := List.mem_map.mp hc
  exact digitChar_ascii d (natDigits_lt n d hd)

theorem intL_ascii (i : Int) : (intL i).all isAsciiCh = true := by
  rw [intL]
  split_ifs
  · rw [List.all_cons, natL_ascii]
    rfl
  · exact natL_ascii _

theorem indChars_ascii (lvl : Nat) : (indChars lvl).all isAsciiCh = true := by
  rw [indChars, List.all_eq_true]
  intro c hc
  rw [List.eq_of_mem_replicate hc]
  rfl

theorem dump_ascii : ∀ (n : Nat),
    (∀ (j : Json) (lvl : Nat), jsize j ≤ n → (dumpL lvl j).all isAsciiCh = true) ∧
    (∀ (xs : List Json) (lvl : Nat), lsize xs ≤ n →
      (dumpTail lvl xs).all isAsciiCh = true) ∧
    (∀ (kvs : List (String × Json)) (lvl : Nat), psize kvs ≤ n →
      (dumpMTail lvl kvs).all isAsciiCh = true) := by
  intro n
  induction n with
  | zero =>
    refine ⟨fun j _ h => absurd h (by have := jsize_pos j; omega),
      fun xs _ h => absurd h (by have := lsize_pos xs; omega),
      fun kvs _ h => absurd h (by have := psize_pos kvs; omega)⟩
  | succ n ih =>
    obtain ⟨ihJ, ihL, ihM⟩ := ih
    refine ⟨?_, ?_, ?_⟩
    · intro j lvl hsz
      cases j with
      | null => rw [show dumpL lvl Json.null = ['n', 'u', 'l', 'l'] by rw [dumpL]]; decide
      | bool b =>
        cases b with
        | true =>
          rw [show dumpL lvl (Json.bool true) = ['t', 'r', 'u', 'e'] by rw [dumpL]]
          decide
        | false =>
          rw [show dumpL lvl (Json.bool false) = ['f', 'a', 'l', 's', 'e'] by rw [dumpL]]
          decide
      | num m =>
        rw [show dumpL lvl (Json.num m) = intL m by rw [dumpL]]
        exact intL_ascii m
      | str s =>
        rw [show dumpL lvl (Json.str s) = encStr s by rw [dumpL]]
        exact encStr_ascii s
      | arr xs =>
        cases xs with
        | nil => rw [show dumpL lvl (Json.arr []) = ['[', ']'] by rw [dumpL]]; decide
        | cons x xs =>
          rw [jsize, lsize] at hsz
          rw [show dumpL lvl (Json.arr (x :: xs)) = '[' :: '\n' :: (indChars (lvl + 1) ++
            (dumpL (lvl + 1) x ++ (dumpTail (lvl + 1) xs ++
              ('\n' :: (indChars lvl ++ [']']))))) by rw [dumpL]]
          simp only [List.all_cons, List.all_append,
            indChars_ascii, ihJ x (lvl + 1) (by have := lsize_pos xs; omega),
            ihL xs (lvl + 1) (by have := jsize_pos x; omega)]
          decide
      | obj kvs =>
        cases kvs with
        | nil => rw [show dumpL lvl (Json.obj []) = ['{', '}'] by rw [dumpL]]; decide
        | cons kv kvs =>
          rw [jsize, psize] at hsz
          rw [show dumpL lvl (Json.obj (kv :: kvs)) = '{' :: '\n' :: (indChars (lvl + 1) ++
            (encStr kv.1 ++ (':' :: ' ' :: (dumpL (lvl + 1) kv.2 ++
              (dumpMTail (lvl + 1) kvs ++ ('\n' :: (indChars lvl ++ ['}'])))))))
            by rw [dumpL]]
          simp only [List.all_cons, List.all_append, indChars_ascii, encStr_ascii,
            ihJ kv.2 (lvl + 1) (by have := psize_pos kvs; omega),
            ihM kvs (lvl + 1) (by have := jsize_pos kv.2; omega)]
          decide
    · intro xs lvl hsz
      cases xs with
      | nil => rw [show dumpTail lvl ([] : List Json) = [] by rw [dumpTail]]; rfl
      | cons x xs =>
        rw [lsize] at hsz
        rw [show dumpTail lvl (x :: xs) = ',' :: '\n' :: (indChars lvl ++
          (dumpL lvl x ++ dumpTail lvl xs)) by rw [dumpTail]]
        simp only [List.all_cons, List.all_append, indChars_ascii,
          ihJ x lvl (by have := lsize_pos xs; omega),
          ihL xs lvl (by have := jsize_pos x; omega)]
        decide
    · intro kvs lvl hsz
      cases kvs with
      | nil => rw [show dumpMTail lvl ([] : List (String × Json)) = [] by rw [dumpMTail]]; rfl
      | cons kv kvs =>
        rw [psize] at hsz
        rw [show dumpMTail lvl (kv :: kvs) = ',' :: '\n' :: (indChars lvl ++
          (encStr kv.1 ++ (':' :: ' ' :: (dumpL lvl kv.2 ++ dumpMTail lvl kvs))))
          by rw [dumpMTail]]
        simp only [List.all_cons, List.all_append, indChars_ascii, encStr_ascii,
          ihJ kv.2 lvl (by have := psize_pos kvs; omega),
          ihM kvs lvl (by have := jsize_pos kv.2; omega)]
        decide

/-- C1: for every delivered message whose payload decodes as UTF-8 and
parses as JSON value `P`, the handler performs exactly one file write —
at the timestamped path, with content that parses back to exactly `P` —
and issues exactly one acknowledgment for that delivery tag. -/
theorem claim_C1 (output_folder : String) (fs : FS) (t : DateTime) (m : Method)
    (body : List Nat) (P : Json) (h : loadsBytes body = some P) :
    (callback output_folder fs t m body).writes =
      [(osPathJoin output_folder (mkFilename t m.routing_key), dumps P)] ∧
    loads (dumps P) = some P ∧
    (callback output_folder fs t m body).actions =
      [BrokerAction.ack m.delivery_tag] := by
  refine ⟨?_, loads_dumps P (loadsBytes_wf body P h), ?_⟩ <;>
    simp [callback, h, openAndWrite]

theorem claim_C1_witness :
    loadsBytes [55] = some (Json.num 7) ∧
    ((callback "out" [] ⟨2024, 1, 2, 3, 4, 5, 6⟩ ⟨"expense.food", 9⟩ [55]).writes =
      [(osPathJoin "out" (mkFilename ⟨2024, 1, 2, 3, 4, 5, 6⟩ "expense.food"),
        dumps (Json.num 7))] ∧
    loads (dumps (Json.num 7)) = some (Json.num 7) ∧
    (callback "out" [] ⟨2024, 1, 2, 3, 4, 5, 6⟩ ⟨"expense.food", 9⟩ [55]).actions =
      [BrokerAction.ack 9]) :=
  ⟨by rfl, claim_C1 "out" [] ⟨2024, 1, 2, 3, 4, 5, 6⟩ ⟨"expense.food", 9⟩ [55]
    (Json.num 7) (by rfl)⟩

/-- C8: the serialized output is pure ASCII — every character of
`json.dump`'s output (default `ensure_ascii=True`) is below 128, with
non-ASCII payload characters emitted as escape sequences — and the
escaped content still parses back to the same JSON value. -/
theorem claim_C8 (j : Json) (hwf : wf j = true) :
    (dumps j).data.all isAsciiCh = true ∧ loads (dumps j) = some j := by
  constructor
  · show (dumpL 0 j).all isAsciiCh = true
    exact (dump_ascii (jsize j)).1 j 0 le_rfl
  · exact loads_dumps j hwf

theorem claim_C8_witness :
    wf (Json.str (String.mk [Char.ofNat 233])) = true ∧
    ((dumps (Json.str (String.mk [Char.ofNat 233]))).data.all isAsciiCh = true ∧
     loads (dumps (Json.str (String.mk [Char.ofNat 233]))) =
       some (Json.str (String.mk [Char.ofNat 233]))) :=
  ⟨by rw [wf], claim_C8 (Json.str (String.mk [Char.ofNat 233])) (by rw [wf])⟩
